import Mathlib

/-
  Verification of the Review Consensus Engine
  (consensus code review: session state machine, change curator,
  issue-consensus calculator, token estimator, protocol server).

  Shallow embedding conventions:
  * Python strings are embedded as `String` or `List Char` (the latter where
    character-level scanning matters); Python `str.lower`/`str.upper` are
    embedded with Lean's ASCII `Char.toLower`/`Char.toUpper` (the keyword and
    marker data handled by the engine is ASCII or uncased Korean, where both
    agree with Python).
  * Python dicts (insertion ordered) are association lists; `d[k] = v`
    replaces in place when the key exists and appends otherwise.
  * Python sets are `Finset`.
  * Python floats in the engine only ever compare small integer ratios
    against the literals 1.0, 0.66, 0.33 and 0.5; these comparisons are exact
    at the scales involved, so they are embedded as exact `ℚ` / `Nat`
    comparisons (0.66 and 0.33 as the decimal rationals 66/100 and 33/100).
  * External collaborators (git, tiktoken, the peer-AI CLI tools, the tool
    dispatch registry) are oracle parameters: functions supplied to the
    embedded code, never baked into it.
  * Wall-clock timestamps recorded for observability and the append-only
    progress log are omitted from the state: no claim mentions them.
-/

/-! ### Character helpers -/

/-- The backtick character, written by code point. -/
def backtickChar : Char := Char.ofNat 96

/-- The backslash character, written by code point. -/
def backslashChar : Char := Char.ofNat 92

/-- Characters that terminate a `[^/\\]` run in the location regex. -/
def isSlash (c : Char) : Bool := c = '/' || c = backslashChar

/-- ASCII letter, the characters matched by `[a-z]` under `re.IGNORECASE`. -/
def isAsciiLetter (c : Char) : Bool :=
  ('a' ≤ c && c ≤ 'z') || ('A' ≤ c && c ≤ 'Z')

/-- ASCII digit, the characters matched by `\d` on the engine's inputs. -/
def isDigitChar (c : Char) : Bool := '0' ≤ c && c ≤ '9'

/-- `str.lower`, character by character. -/
def lowerChars (cs : List Char) : List Char := cs.map Char.toLower

/-- `str.upper`, character by character. -/
def upperString (s : String) : String := String.mk (s.data.map Char.toUpper)

/-- Does `needle` occur at the head of `hay`? -/
def headMatches : List Char → List Char → Bool
  | [], _ => true
  | _ :: _, [] => false
  | a :: as, b :: bs => a = b && headMatches as bs

/-- Python's `needle in hay` substring test. -/
def containsChars (hay needle : List Char) : Bool :=
  match hay with
  | [] => needle.isEmpty
  | _ :: rest => headMatches needle hay || containsChars rest needle

/-- Python's `str.strip()`: drop whitespace from both ends. -/
def stripChars (cs : List Char) : List Char :=
  ((cs.dropWhile Char.isWhitespace).reverse.dropWhile Char.isWhitespace).reverse

/-- Helper for `splitWS`: accumulates the current (reversed) word. -/
def splitWSAux : List Char → List Char → List (List Char)
  | [], acc => if acc.isEmpty then [] else [acc.reverse]
  | c :: rest, acc =>
    if c.isWhitespace then
      if acc.isEmpty then splitWSAux rest [] else acc.reverse :: splitWSAux rest []
    else splitWSAux rest (c :: acc)

/-- Python's `str.split()`: split on whitespace runs, no empty words. -/
def splitWS (cs : List Char) : List (List Char) := splitWSAux cs []

/-- Numeric value of a decimal digit string, as built by `int(...)`. -/
def digitsToNat (ds : List Char) : Nat :=
  ds.foldl (fun a c => 10 * a + (c.toNat - 48)) 0

/-- Decimal digit character for `d < 10`. -/
def digitChar (d : Nat) : Char := Char.ofNat (48 + d)

/-- Decimal representation of a natural number, as produced by Python's
`str(int)` inside an f-string. -/
def decRepr (n : Nat) : List Char :=
  if n = 0 then ['0'] else ((Nat.digits 10 n).reverse.map digitChar)

/-! ### Token budget estimator
`src/src/consensus_code_review/mcp/utils/token_counter.py`, the pure
character-based fallback branch taken when the external `tiktoken` library is
absent (`except ImportError`).  The tiktoken branch delegates to an external
tokenizer and is out of the embedding. -/

/-- `count_tokens` fallback: `len(text) // 4`. -/
def count_tokens (text : List Char) : Nat := text.length / 4

/-- `truncate_to_tokens` fallback branch:
`max_chars = max_tokens * 4`; return the text unchanged when it fits,
otherwise `text[:max_chars] + suffix`. -/
def truncate_to_tokens (text : List Char) (max_tokens : Nat) (suffix : List Char) :
    List Char × Bool :=
  let max_chars := max_tokens * 4
  if text.length ≤ max_chars then (text, false)
  else (text.take max_chars ++ suffix, true)

/-! ### Change curator
`src/src/consensus_code_review/data_curator.py`.  Git is an external
collaborator: the diff text of each path is an oracle function `diffOf`. -/

/-- `FileChange` dataclass. -/
structure FileChange where
  path : List Char
  priority : Nat
  reason : List Char
  insertions : Nat
  deletions : Nat
  diff : Option (List Char)
deriving DecidableEq

/-- `DataCurator._estimate_tokens`: `int(len(text) / 3.5)`, which is exactly
`⌊2·len/7⌋` (3.5 is an exact float and the quotient is never close enough to
an integer for rounding to disturb truncation). -/
def estimate_tokens (text : List Char) : Nat := 2 * text.length / 7

/-- The loop of `DataCurator._select_within_budget` with its running total
`current_tokens` made explicit.  Each file's diff is fetched, its cost
estimated, and the file is selected (with its diff populated) when the
running total stays within the budget, otherwise appended to `skipped`;
the walk always continues with the next file. -/
def selectWithinBudgetAux (diffOf : List Char → List Char) (budget : Nat) :
    List FileChange → Nat → List FileChange × List FileChange
  | [], _ => ([], [])
  | fc :: rest, current =>
    let diff := diffOf fc.path
    let cost := estimate_tokens diff
    if current + cost ≤ budget then
      let p := selectWithinBudgetAux diffOf budget rest (current + cost)
      ({ fc with diff := some diff } :: p.1, p.2)
    else
      let p := selectWithinBudgetAux diffOf budget rest current
      (p.1, fc :: p.2)

/-- `DataCurator._select_within_budget`: walk the prioritized list starting
from a zero running total. -/
def select_within_budget (diffOf : List Char → List Char) (budget : Nat)
    (files : List FileChange) : List FileChange × List FileChange :=
  selectWithinBudgetAux diffOf budget files 0

/-- Total estimated cost of a file list under the oracle `diffOf`. -/
def totalCost (diffOf : List Char → List Char) (files : List FileChange) : Nat :=
  (files.map (fun fc => estimate_tokens (diffOf fc.path))).sum

/-! ### Issue consensus calculator
`src/src/mcp/consensus_calculator.py`. -/

/-- A code-review issue (`Issue.__init__`): `agreed_by` starts as the
singleton of the originating agent, `disagreed_by` starts empty. -/
structure Issue where
  title : List Char
  location : List Char
  severity : List Char
  description : List Char
  found_by : String
  agreed_by : Finset String
  disagreed_by : Finset String
deriving DecidableEq

/-- `Issue` freshly created from one extracted block. -/
def mkIssue (title location severity description : List Char) (found_by : String) :
    Issue :=
  ⟨title, location, severity, description, found_by, {found_by}, ∅⟩

/-- `Issue.get_key`: lowered, stripped title and location joined by `@`. -/
def issueKey (i : Issue) : List Char :=
  stripChars (lowerChars i.title) ++ '@' :: stripChars (lowerChars i.location)

/-- One step of `re.search(r'([^/\\]+\.[a-z]+):?(\d+)?', ..., re.IGNORECASE)`
backtracking inside the maximal `[^/\\]` run: position `p` can end the
`[^/\\]+` group iff at least one character precedes it, the character at `p`
is a dot and the next character is a letter. -/
def validDot (run : List Char) (p : Nat) : Bool :=
  decide (1 ≤ p) && (run.get? p = some '.') &&
    (match run.get? (p + 1) with
     | some c => isAsciiLetter c
     | none => false)

/-- The greedy `[^/\\]+` group backtracks from the longest run, so the regex
commits to the LAST valid dot position within the run. -/
def lastDotPos (run : List Char) : Option Nat :=
  ((List.range run.length).filter (fun p => validDot run p)).getLast?

/-- Attempt of the filename regex anchored at the head of `cs`:
`[^/\\]+` up to the last valid dot, `[a-z]+` greedy for the extension, an
optional colon, then an optional greedy digit group. -/
def matchAt (cs : List Char) : Option (List Char) :=
  let run := cs.takeWhile (fun c => !isSlash c)
  match lastDotPos run with
  | none => none
  | some p =>
    let ext := (run.drop (p + 1)).takeWhile isAsciiLetter
    let fname := run.take p ++ '.' :: ext
    let rest := cs.drop (p + 1 + ext.length)
    let rest2 := if rest.head? = some ':' then rest.tail else rest
    let line := rest2.takeWhile isDigitChar
    some (if line.isEmpty then fname else fname ++ ':' :: line)

/-- `re.search`: try the anchored match at each position, leftmost first. -/
def searchFilename : List Char → Option (List Char)
  | [] => none
  | c :: rest =>
    match matchAt (c :: rest) with
    | some r => some r
    | none => searchFilename rest

/-- `ConsensusCalculator.normalize_location`: strip backticks and surrounding
whitespace, then search for `filename.ext` with an optional `:line`; when the
regex finds nothing the cleaned location is returned as is. -/
def normalize_location (loc : List Char) : List Char :=
  let cleaned := stripChars (loc.filter (fun c => c ≠ backtickChar))
  match searchFilename cleaned with
  | some r => r
  | none => cleaned

/-- `re.match(r'([^:]+):(\d+)', loc)`: a nonempty colon-free file part, a
colon, then at least one digit (greedy). -/
def parseFileLine (loc : List Char) : Option (List Char × Nat) :=
  let file := loc.takeWhile (fun c => c ≠ ':')
  if file.isEmpty then none
  else
    match loc.drop file.length with
    | ':' :: r =>
      let ds := r.takeWhile isDigitChar
      if ds.isEmpty then none else some (file, digitsToNat ds)
    | _ => none

/-- `abs(line1 - line2)` on Python ints. -/
def lineDist (a b : Nat) : Nat := if a ≤ b then b - a else a - b

/-- The stop words removed before the title similarity test. -/
def stopWords : List (List Char) :=
  ["the", "a", "an", "in", "on", "at", "to", "for", "of", "with"].map String.toList

/-- `set(title.lower().split()) - stop_words`. -/
def titleWords (title : List Char) : Finset (List Char) :=
  (splitWS (lowerChars title)).toFinset \ stopWords.toFinset

/-- The Jaccard-similarity part of `is_same_issue`: false when either word
set is empty, otherwise `intersection / union > 0.5`, embedded exactly as
`2·|∩| > |∪|` (the float division and comparison are exact at these
scales). -/
def titleSimilar (t1 t2 : List Char) : Bool :=
  let w1 := titleWords t1
  let w2 := titleWords t2
  if w1 = ∅ ∨ w2 = ∅ then false
  else decide (2 * (w1 ∩ w2).card > (w1 ∪ w2).card)

/-- `ConsensusCalculator.is_same_issue`: equal normalized locations, or same
file with line numbers within 5, or title similarity above one half. -/
def is_same_issue (i1 i2 : Issue) : Bool :=
  let loc1 := normalize_location i1.location
  let loc2 := normalize_location i2.location
  if loc1 = loc2 then true
  else
    let near :=
      match parseFileLine loc1, parseFileLine loc2 with
      | some fl1, some fl2 => fl1.1 = fl2.1 && lineDist fl1.2 fl2.2 ≤ 5
      | _, _ => false
    if near then true
    else titleSimilar i1.title i2.title

/-- The calculator's `issues` dict: insertion-ordered key/issue pairs. -/
abbrev IssueStore : Type := List (List Char × Issue)

/-- Python dict assignment `issues[key] = issue`. -/
def setIssue : IssueStore → List Char → Issue → IssueStore
  | [], k, i => [(k, i)]
  | (k', e) :: rest, k, i =>
    if k' = k then (k, i) :: rest else (k', e) :: setIssue rest k i

/-- `ConsensusCalculator.add_issue`: union the new issue's finder into the
first registered issue it matches; otherwise register it under its key. -/
def addIssue : IssueStore → Issue → IssueStore
  | [], i => setIssue [] (issueKey i) i
  | (k, e) :: rest, i =>
    if is_same_issue i e then
      (k, { e with agreed_by := insert i.found_by e.agreed_by }) :: rest
    else (k, e) :: addIssue rest i

/-- `severity_order.get(severity, 3)`. -/
def severityOrder (s : List Char) : Nat :=
  if s = "CRITICAL".toList then 0
  else if s = "MAJOR".toList then 1
  else if s = "MINOR".toList then 2
  else 3

/-- `agreed_count / total_ais if total_ais > 0 else 0`, as an exact
rational. -/
def consensusPct (agreed total : Nat) : ℚ :=
  if 0 < total then (agreed : ℚ) / (total : ℚ) else 0

/-- The four result buckets of `calculate_consensus`. -/
structure ConsensusBuckets where
  critical : List Issue
  major : List Issue
  minor : List Issue
  disputed : List Issue
deriving DecidableEq

/-- One iteration of the classification loop in `calculate_consensus`:
the `if/elif` severity-tier chain followed by the independent disputed
check.  Float thresholds 1.0, 0.66, 0.33 are the exact rationals 1, 66/100,
33/100. -/
def classifyAdd (total : Nat) (b : ConsensusBuckets) (i : Issue) : ConsensusBuckets :=
  let pct := consensusPct i.agreed_by.card total
  let isDisputed := 0 < i.disagreed_by.card
  let b1 :=
    if pct = 1 ∧ ¬ isDisputed then { b with critical := b.critical ++ [i] }
    else if pct ≥ 66 / 100 ∧ ¬ isDisputed then { b with major := b.major ++ [i] }
    else if pct ≥ 33 / 100 then { b with minor := b.minor ++ [i] }
    else b
  if isDisputed then { b1 with disputed := b1.disputed ++ [i] } else b1

/-- Sort key comparison for `result[category].sort(key=...)`: severity order
ascending, then agreement count descending (the Python key negates the
count). -/
def issueLE (a b : Issue) : Bool :=
  severityOrder a.severity < severityOrder b.severity ||
    (severityOrder a.severity = severityOrder b.severity &&
      (-(a.agreed_by.card : ℤ) ≤ -(b.agreed_by.card : ℤ)))

/-- Stable insertion used by `sortIssues`: an element goes before the first
strictly-greater key, after equal keys already present. -/
def insertSorted (x : Issue) : List Issue → List Issue
  | [] => [x]
  | y :: ys => if issueLE x y then x :: y :: ys else y :: insertSorted x ys

/-- Stable sort mirroring Python's `list.sort` on the tuple key. -/
def sortIssues (l : List Issue) : List Issue := l.foldr insertSorted []

/-- `ConsensusCalculator.calculate_consensus`: classify every registered
issue (in insertion order) into the four buckets, then sort each bucket. -/
def calculate_consensus (st : IssueStore) (total_ais : Nat) : ConsensusBuckets :=
  let b := (st.map Prod.snd).foldl (classifyAdd total_ais) ⟨[], [], [], []⟩
  ⟨sortIssues b.critical, sortIssues b.major, sortIssues b.minor, sortIssues b.disputed⟩

/-! ### Review session and orchestrator
`src/src/consensus_code_review/mcp/review_orchestrator.py`.  Peer-AI
invocation is an external collaborator: a `triggerPeerReviews` call receives
the oracle list of detected reviewer AIs with each one's response (`none`
models a failed invocation, which the code logs and skips).  Session
persistence (`_save_session`) and artifact generation
(`create_review_response`) only read the session and are omitted. -/

/-- `ReviewSession` state.  `reviews` maps agent name to its round/content
map, both insertion ordered; submission timestamps, the progress log and
`created_at` are observability-only and omitted. -/
structure ReviewSession where
  session_id : List Char
  base_branch : String
  target_branch : String
  reviews : List (String × List (Nat × String))
  current_round : Nat
  max_rounds : Nat
  consensus_reached : Bool
  final_review : Option String
  curated_data : Option String
  target_ais : Option (List String)
  auto_peer_review_triggered : Bool
deriving DecidableEq

/-- `ReviewSession.__init__`. -/
def initSession (session_id : List Char) (base target : String)
    (curated_data : Option String) (max_rounds : Nat)
    (target_ais : Option (List String)) : ReviewSession :=
  ⟨session_id, base, target, [], 1, max_rounds, false, none, curated_data,
    target_ais, false⟩

/-- Python dict assignment on a round map. -/
def setRound : List (Nat × String) → Nat → String → List (Nat × String)
  | [], r, c => [(r, c)]
  | (k, v) :: rest, r, c =>
    if k = r then (r, c) :: rest else (k, v) :: setRound rest r c

/-- Round-map lookup (`round_num in rounds` / `rounds[round_num]`). -/
def findRound (rounds : List (Nat × String)) (r : Nat) : Option String :=
  (rounds.find? (fun p => p.1 = r)).map Prod.snd

/-- Python dict assignment on the outer reviews map. -/
def setReview : List (String × List (Nat × String)) → String → Nat → String →
    List (String × List (Nat × String))
  | [], ai, r, c => [(ai, [(r, c)])]
  | (name, rounds) :: rest, ai, r, c =>
    if name = ai then (name, setRound rounds r c) :: rest
    else (name, rounds) :: setReview rest ai r c

/-- Content submitted by `ai` in round `r`, if any. -/
def getReview (s : ReviewSession) (ai : String) (r : Nat) : Option String :=
  ((s.reviews.find? (fun p => p.1 = ai)).map Prod.snd).bind (findRound · r)

/-- `ReviewSession.submit_review`: record the content at `(ai, round)`. -/
def sessionSubmitReview (s : ReviewSession) (ai : String) (round : Nat)
    (review : String) : ReviewSession :=
  { s with reviews := setReview s.reviews ai round review }

/-- `ReviewSession.get_other_reviews`: submissions of every other agent in
the given round, in agent insertion order. -/
def getOtherReviews (s : ReviewSession) (requesting : String) (round : Nat) :
    List (String × String) :=
  s.reviews.filterMap (fun p =>
    if p.1 ≠ requesting then (findRound p.2 round).map (fun c => (p.1, c))
    else none)

/-- `ReviewSession.advance_round`: a distinct status at the ceiling with the
counter unchanged, otherwise increment. -/
def advanceRound (s : ReviewSession) : (String × Nat) × ReviewSession :=
  if s.current_round ≥ s.max_rounds then
    (("max_rounds_reached", s.current_round), s)
  else
    (("advanced", s.current_round + 1),
      { s with current_round := s.current_round + 1 })

/-- `ReviewSession.finalize`. -/
def finalizeSession (s : ReviewSession) (final : String) : ReviewSession :=
  { s with consensus_reached := true, final_review := some final }

/-- The positive-sentiment keyword list of `_check_round_consensus`. -/
def positiveKeywords : List String :=
  ["approve", "approved", "accept", "accepted", "good", "agree", "agreed",
   "looks good", "lgtm", "excellent", "well done", "comprehensive",
   "thorough", "accurate", "correct", "합의", "동의", "좋습니다"]

/-- The negative-sentiment keyword list of `_check_round_consensus`. -/
def negativeKeywords : List String :=
  ["critical", "must fix", "serious issue", "concern", "problem",
   "incorrect", "missing", "overlooked", "disagree", "reject", "not enough",
   "insufficient", "incomplete", "부족", "문제", "개선 필요"]

/-- `any(keyword.lower() in text.lower() for keyword in kws)`: the inner
keyword loop with its `break`, so one text contributes at most once. -/
def textHasAny (kws : List String) (text : String) : Bool :=
  kws.any (fun k => containsChars (lowerChars text.toList) (lowerChars k.toList))

/-- Number of feedback texts containing at least one keyword of `kws`. -/
def keywordCount (kws : List String) (texts : List String) : Nat :=
  (texts.filter (textHasAny kws)).length

/-- Result record of `_check_round_consensus` (the early no-feedback return
carries no counts; it is embedded with zero counts). -/
structure ConsensusCheck where
  consensus_reached : Bool
  confidence : ℚ
  positive_count : Nat
  negative_count : Nat
  total_feedbacks : Nat
deriving DecidableEq

/-- The decision core of `_check_round_consensus` on the feedback texts:
`positive_count > negative_count and positive_count >= total * 0.5`; the
float `0.5` comparison is exact, embedded as `2·pos ≥ total`. -/
def roundConsensusDecision (texts : List String) : Bool :=
  let pos := keywordCount positiveKeywords texts
  let neg := keywordCount negativeKeywords texts
  decide (pos > neg) && decide (2 * pos ≥ texts.length)

/-- `ReviewOrchestrator._check_round_consensus`: collect the non-lead
submissions of the current round; no feedback means no consensus; otherwise
apply the keyword heuristic. -/
def checkRoundConsensus (s : ReviewSession) : ConsensusCheck :=
  let texts := (getOtherReviews s "CLAUDE" s.current_round).map Prod.snd
  if texts.isEmpty then ⟨false, 0, 0, 0, 0⟩
  else
    let pos := keywordCount positiveKeywords texts
    let neg := keywordCount negativeKeywords texts
    ⟨roundConsensusDecision texts, (pos : ℚ) / (texts.length : ℚ), pos, neg,
      texts.length⟩

/-- Truthiness of `session.curated_data` (`None` and `""` are falsy). -/
def curatedTruthy (s : ReviewSession) : Bool :=
  match s.curated_data with
  | some d => !d.isEmpty
  | none => false

/-- The peer loop of `_trigger_peer_reviews`: each successfully invoked
reviewer AI is recorded under its upper-cased name in round 1; a failed
invocation (`none`) is logged and skipped. -/
def recordPeerResponses (peers : List (String × Option String))
    (s : ReviewSession) : ReviewSession :=
  peers.foldl
    (fun acc p =>
      match p.2 with
      | some resp => sessionSubmitReview acc (upperString p.1) 1 resp
      | none => acc)
    s

/-- `ReviewOrchestrator._trigger_peer_reviews`: guarded by the idempotency
flag; reads the lead's round-1 text (falsy means give up, flag already set);
then runs the peer loop.  `peers` is the oracle list of detected reviewer
AIs (the lead already excluded by the code's filtering) with each one's
response. -/
def triggerPeerReviews (peers : List (String × Option String))
    (s : ReviewSession) : ReviewSession :=
  if s.auto_peer_review_triggered then s
  else
    let s1 := { s with auto_peer_review_triggered := true }
    let claude := ((getReview s1 "CLAUDE" 1).getD "")
    if claude.isEmpty then s1
    else recordPeerResponses peers s1

/-- `ReviewOrchestrator.submit_review` on a found session: record the
submission at the current round, then the lead-agent auto-trigger logic —
round 1 fires the peer fan-out once; rounds ≥ 2 check consensus and either
finalize with the new review, force-stop at the round ceiling, or trigger
the next round and increment the counter. -/
def orchestratorSubmitReview (peers : List (String × Option String))
    (s : ReviewSession) (ai : String) (review : String) : ReviewSession :=
  let s1 := sessionSubmitReview s ai s.current_round review
  if upperString ai = "CLAUDE" ∧ curatedTruthy s1 then
    if s1.current_round = 1 ∧ ¬ s1.auto_peer_review_triggered then
      triggerPeerReviews peers s1
    else if 2 ≤ s1.current_round then
      if (checkRoundConsensus s1).consensus_reached then
        { s1 with consensus_reached := true, final_review := some review }
      else if s1.current_round ≥ s1.max_rounds then
        { s1 with consensus_reached := false, final_review := some review }
      else
        let s2 := triggerPeerReviews peers s1
        { s2 with current_round := s2.current_round + 1 }
    else s1
  else s1

/-- Session id built by `create_review_session`:
`f"review_{int(time.time())}_{id(self)}"`, from the whole-second timestamp
and the orchestrator's object id. -/
def sessionIdChars (now selfId : Nat) : List Char :=
  "review_".toList ++ decRepr now ++ '_' :: decRepr selfId

/-- The orchestrator's in-memory session store. -/
structure Orchestrator where
  sessions : List (List Char × ReviewSession)
deriving DecidableEq

/-- Python dict assignment on the session store. -/
def setSession : List (List Char × ReviewSession) → List Char → ReviewSession →
    List (List Char × ReviewSession)
  | [], k, s => [(k, s)]
  | (k', e) :: rest, k, s =>
    if k' = k then (k, s) :: rest else (k', e) :: setSession rest k s

/-- `ReviewOrchestrator.create_review_session`: build the id from the clock
second and the object id, create the session, store it under the id. -/
def createReviewSession (o : Orchestrator) (now selfId : Nat)
    (base target : String) (curated_data : Option String) (max_rounds : Nat)
    (target_ais : Option (List String)) : List Char × Orchestrator :=
  let sid := sessionIdChars now selfId
  (sid, ⟨setSession o.sessions sid
    (initSession sid base target curated_data max_rounds target_ais)⟩)

/-- One observable mutation of a session: the operations reachable through
the orchestrator's API (`submit_review` at both levels, `advance_round`,
`finalize`). -/
inductive SessionStep : ReviewSession → ReviewSession → Prop
  | submit (s : ReviewSession) (ai : String) (round : Nat) (review : String) :
      SessionStep s (sessionSubmitReview s ai round review)
  | orchSubmit (s : ReviewSession) (peers : List (String × Option String))
      (ai : String) (review : String) :
      SessionStep s (orchestratorSubmitReview peers s ai review)
  | advance (s : ReviewSession) : SessionStep s (advanceRound s).2
  | finalizeStep (s : ReviewSession) (text : String) :
      SessionStep s (finalizeSession s text)

/-- Session states reachable from a given state. -/
def ReachableSession : ReviewSession → ReviewSession → Prop :=
  Relation.ReflTransGen SessionStep

/-! ### Protocol server
`src/src/consensus_code_review/stdio_server.py`.  The manager dispatch and
the filesystem read are oracles; `Except.error` models a raised exception,
which `handle_request`'s outer `try/except` converts into an error reply.
Only the fields that decide reply emission and id correlation are modelled;
reply bodies are abstracted to a result/error flag. -/

/-- A decoded request line: `method`, the optional `id`, and the `params`
fields the dispatch logic inspects (`name` for `tools/call`, `uri` for
`resources/read`). -/
structure MCPRequest where
  method : Option String
  id : Option String
  toolName : Option String
  uri : Option String
deriving DecidableEq

/-- A reply object: its correlation `id` and whether it is an error reply. -/
structure MCPResponse where
  id : Option String
  isError : Bool
deriving DecidableEq

/-- Oracles for the externally-dispatched operations. -/
structure DispatchOracle where
  callTool : String → String → Except String String
  readFile : String → Except String String

/-- `tool_name.split("_", 1)` guarded by `"_" in tool_name`. -/
def splitToolName (name : List Char) : Option (List Char × List Char) :=
  if name.contains '_' then
    some (name.takeWhile (fun c => c ≠ '_'),
      (name.dropWhile (fun c => c ≠ '_')).tail)
  else none

/-- `MCPServer.handle_request`: `None` (no reply) exactly for the
`notifications/initialized` method; every other request — including unknown
methods, a missing `name` (the `"_" in None` `TypeError` is caught by the
outer handler), a malformed tool name, a bad resource URI, and any exception
from dispatch — produces one reply carrying the request's id. -/
def handleRequest (oracle : DispatchOracle) (req : MCPRequest) :
    Option MCPResponse :=
  match req.method with
  | some "tools/list" => some ⟨req.id, false⟩
  | some "tools/call" =>
    match req.toolName with
    | none => some ⟨req.id, true⟩
    | some name =>
      match splitToolName name.toList with
      | none => some ⟨req.id, true⟩
      | some srv =>
        match oracle.callTool (String.mk srv.1) (String.mk srv.2) with
        | .ok _ => some ⟨req.id, false⟩
        | .error _ => some ⟨req.id, true⟩
  | some "initialize" => some ⟨req.id, false⟩
  | some "resources/list" => some ⟨req.id, false⟩
  | some "resources/read" =>
    match req.uri with
    | some u =>
      if "file://".isPrefixOf u then
        match oracle.readFile (u.drop 7) with
        | .ok _ => some ⟨req.id, false⟩
        | .error _ => some ⟨req.id, true⟩
      else some ⟨req.id, true⟩
    | none => some ⟨req.id, true⟩
  | some "notifications/initialized" => none
  | _ => some ⟨req.id, true⟩

/-- The emission decision of `MCPServer.run`: a decoded request produces an
output line iff `handle_request` returned a reply (`if response:`; reply
dicts are never empty, so truthiness is `isSome`). -/
def emitsReply (oracle : DispatchOracle) (req : MCPRequest) : Bool :=
  (handleRequest oracle req).isSome

/-! ### Concrete instances used by individual claims -/

/-- Character admissible in a modelled directory-path prefix: no dot (so the
filename pattern cannot fire inside the prefix), no backtick (stripped by
normalization), no whitespace (stripped at the ends). -/
def cleanDirChar (c : Char) : Bool :=
  c ≠ '.' && c ≠ backtickChar && !c.isWhitespace

/-- Character admissible in a modelled file base name (before the dot). -/
def baseNameChar (c : Char) : Bool :=
  !isSlash c && c ≠ '.' && c ≠ backtickChar && !c.isWhitespace

/-- C1 example: an issue agreed by two of three agents and disputed by the
third, as produced by registering the lead's finding and applying one
agreeing and one disagreeing peer critique. -/
def c1Issue : Issue :=
  { title := "SQL Injection".toList, location := "auth.py:10".toList,
    severity := "CRITICAL".toList, description := [], found_by := "CLAUDE",
    agreed_by := {"CLAUDE", "GPT"}, disagreed_by := {"GEMINI"} }

/-- C1 example: a calculator holding exactly that issue. -/
def c1Store : IssueStore := [(issueKey c1Issue, c1Issue)]

/-- C2 example: an issue at `a.py:1`. -/
def c2IssueA : Issue :=
  mkIssue "sql injection risk".toList "a.py:1".toList "CRITICAL".toList [] "CLAUDE"

/-- C2 example: an issue in a different file with a near-identical title. -/
def c2IssueB : Issue :=
  mkIssue "sql injection risk".toList "b.py:99".toList "MAJOR".toList [] "GPT"

/-- C3 example: a session whose termination decision has been made (consensus
reached in round 2 with final review `"v2"`), with a positively-worded peer
feedback present in the current round. -/
def c3Session : ReviewSession :=
  { session_id := "sid".toList, base_branch := "main", target_branch := "HEAD",
    reviews := [("CLAUDE", [(1, "r1"), (2, "v2")]),
                ("GPT", [(1, "fb1"), (2, "looks good, approve")])],
    current_round := 2, max_rounds := 3, consensus_reached := true,
    final_review := some "v2", curated_data := some "diff",
    target_ais := none, auto_peer_review_triggered := true }

/-- C4 example files, in priority order. -/
def c4FileA : FileChange := ⟨"a".toList, 1, [], 0, 0, none⟩

/-- C4 example files, in priority order. -/
def c4FileB : FileChange := ⟨"b".toList, 1, [], 0, 0, none⟩

/-- C4 example files, in priority order. -/
def c4FileC : FileChange := ⟨"c".toList, 2, [], 0, 0, none⟩

/-- C4 diff oracle: unit costs 8, 3 and 1 for the three example paths. -/
def c4DiffOf : List Char → List Char := fun p =>
  if p = "a".toList then List.replicate 28 'x'
  else if p = "b".toList then List.replicate 11 'x'
  else List.replicate 4 'x'

/-- C9 example oracle: every dispatch succeeds. -/
def c9Oracle : DispatchOracle := ⟨fun _ _ => .ok "", fun _ => .ok ""⟩

/-- C10 example: same basename and line under different directories, with
unrelated titles. -/
def c10IssueA : Issue :=
  mkIssue "missing null check".toList "src/a/utils.py:10".toList
    "MAJOR".toList [] "CLAUDE"

/-- C10 example: same basename and line under different directories, with
unrelated titles. -/
def c10IssueB : Issue :=
  mkIssue "entirely unrelated words".toList "lib/b/utils.py:10".toList
    "MINOR".toList [] "GPT"

/-! ### Helper lemmas -/

/-- A `takeWhile` over an append stops inside the left part as soon as the
left part contains a failing element. -/
theorem takeWhile_append_of_exists_not {pred : Char → Bool} :
    ∀ (l1 l2 : List Char), (∃ x ∈ l1, pred x = false) →
      (l1 ++ l2).takeWhile pred = l1.takeWhile pred := by
  intro l1
  induction l1 with
  | nil => intro l2 h; rcases h with ⟨x, hx, _⟩; cases hx
  | cons a l1' ih =>
    intro l2 h
    by_cases ha : pred a = true
    · simp only [List.cons_append, List.takeWhile_cons, ha]
      rcases h with ⟨x, hx, hxf⟩
      rcases List.mem_cons.1 hx with rfl | hx'
      · rw [ha] at hxf; cases hxf
      · rw [ih l2 ⟨x, hx', hxf⟩]
    · simp only [List.cons_append, List.takeWhile_cons, if_neg ha]

/-- A `takeWhile` whose predicate holds everywhere is the identity. -/
theorem takeWhile_eq_self_of_all {pred : Char → Bool} :
    ∀ (l : List Char), (∀ x ∈ l, pred x = true) → l.takeWhile pred = l := by
  intro l
  induction l with
  | nil => intro _; rfl
  | cons a l' ih =>
    intro h
    have ha := h a (List.mem_cons_self a l')
    simp [List.takeWhile_cons, ha,
      ih (fun x hx => h x (List.mem_cons_of_mem a hx))]

/-- A `takeWhile` over `l1 ++ c :: l2` where the predicate holds on all of
`l1` and fails at `c` returns exactly `l1`. -/
theorem takeWhile_append_cons {pred : Char → Bool} :
    ∀ (l1 : List Char) (c : Char) (l2 : List Char),
      (∀ x ∈ l1, pred x = true) → pred c = false →
      (l1 ++ c :: l2).takeWhile pred = l1 := by
  intro l1
  induction l1 with
  | nil => intro c l2 _ hc; simp [List.takeWhile_cons, hc]
  | cons a l1' ih =>
    intro c l2 h hc
    have ha := h a (List.mem_cons_self a l1')
    simp [List.cons_append, List.takeWhile_cons, ha,
      ih c l2 (fun x hx => h x (List.mem_cons_of_mem a hx)) hc]

/-- A `dropWhile` whose predicate fails everywhere is the identity. -/
theorem dropWhile_eq_self_of_none {pred : Char → Bool} :
    ∀ (l : List Char), (∀ x ∈ l, pred x = false) → l.dropWhile pred = l := by
  intro l
  induction l with
  | nil => intro _; rfl
  | cons a l' _ =>
    intro h
    have ha := h a (List.mem_cons_self a l')
    simp [List.dropWhile_cons, ha]

/-- `stripChars` does nothing to a whitespace-free string. -/
theorem stripChars_eq_self {cs : List Char}
    (h : ∀ x ∈ cs, x.isWhitespace = false) : stripChars cs = cs := by
  unfold stripChars
  rw [dropWhile_eq_self_of_none cs h,
    dropWhile_eq_self_of_none cs.reverse (fun x hx => h x (List.mem_reverse.1 hx)),
    List.reverse_reverse]

/-- A nonempty list all of whose elements equal `k` has last element `k`. -/
theorem getLast?_eq_of_all_eq {k : Nat} :
    ∀ (l : List Nat), l ≠ [] → (∀ x ∈ l, x = k) → l.getLast? = some k := by
  intro l
  induction l with
  | nil => intro h _; cases h rfl
  | cons a l' ih =>
    intro _ h
    cases l' with
    | nil => simpa [List.getLast?] using h a (List.mem_cons_self _ _)
    | cons b l'' =>
      rw [List.getLast?_cons_cons]
      exact ih (by simp) (fun x hx => h x (List.mem_cons_of_mem a hx))

/-! ### C5: truncation budget (token counter fallback) -/

/-- Claim C5 (status: code_bug).  The character fallback of
`truncate_to_tokens` appends the suffix beyond the `max_tokens * 4`
character prefix without reserving room for it: at `text = "x" * 17`,
`max_tokens = 4` and the default suffix (16 characters, estimate 4 ≤ 4),
the result has estimate 8 > 4, contradicting the claimed bound — and the
repository's own tests (`count_tokens(truncated) <= max_tokens`). -/
theorem C5_truncate_fallback_overflow :
    count_tokens "\n\n...(truncated)".toList = 4 ∧
    (truncate_to_tokens (List.replicate 17 'x') 4 "\n\n...(truncated)".toList).2
      = true ∧
    count_tokens
      (truncate_to_tokens (List.replicate 17 'x') 4 "\n\n...(truncated)".toList).1
      = 8 ∧
    ¬ count_tokens
      (truncate_to_tokens (List.replicate 17 'x') 4 "\n\n...(truncated)".toList).1
      ≤ 4 := by
  refine ⟨rfl, rfl, rfl, by decide⟩

/-! ### C4: greedy budget walk -/

/-- The running total plus the cost of everything selected from the rest of
the walk never exceeds the budget. -/
theorem selectWithinBudgetAux_le (diffOf : List Char → List Char) (budget : Nat) :
    ∀ (files : List FileChange) (current : Nat), current ≤ budget →
      current + totalCost diffOf (selectWithinBudgetAux diffOf budget files current).1
        ≤ budget := by
  intro files
  induction files with
  | nil => intro current h; simpa [selectWithinBudgetAux, totalCost] using h
  | cons fc rest ih =>
    intro current h
    by_cases hfit :
        current + estimate_tokens (diffOf fc.path) ≤ budget
    · simp only [selectWithinBudgetAux, hfit, if_pos]
      have := ih (current + estimate_tokens (diffOf fc.path)) hfit
      simpa [totalCost, Nat.add_assoc] using this
    · simp only [selectWithinBudgetAux, hfit, if_neg, ite_false]
      exact ih current h

/-- The walk partitions the input: selected plus skipped account for every
file. -/
theorem selectWithinBudgetAux_length (diffOf : List Char → List Char)
    (budget : Nat) :
    ∀ (files : List FileChange) (current : Nat),
      (selectWithinBudgetAux diffOf budget files current).1.length +
        (selectWithinBudgetAux diffOf budget files current).2.length =
        files.length := by
  intro files
  induction files with
  | nil => intro current; rfl
  | cons fc rest ih =>
    intro current
    by_cases hfit : current + estimate_tokens (diffOf fc.path) ≤ budget
    · simp only [selectWithinBudgetAux, if_pos hfit, List.length_cons]
      have := ih (current + estimate_tokens (diffOf fc.path))
      omega
    · simp only [selectWithinBudgetAux, if_neg hfit, List.length_cons]
      have := ih current
      omega

/-- Claim C4 (status: corrected), amended: a file that does not fit the
remaining budget is skipped, but the walk continues — a later, cheaper file
can still be selected; what holds instead is that the total estimated cost
of the selection never exceeds the budget and that every file lands in
exactly one of the two output lists. -/
theorem C4_budget_walk (diffOf : List Char → List Char) (budget : Nat)
    (files : List FileChange) :
    totalCost diffOf (select_within_budget diffOf budget files).1 ≤ budget ∧
    (select_within_budget diffOf budget files).1.length +
      (select_within_budget diffOf budget files).2.length = files.length := by
  constructor
  · have := selectWithinBudgetAux_le diffOf budget files 0 (Nat.zero_le _)
    simpa [select_within_budget] using this
  · exact selectWithinBudgetAux_length diffOf budget files 0

/-- Claim C4 counterexample: with budget 10 and costs 8, 3, 1 in walk order,
the second file does not fit (8 + 3 > 10) and is skipped, yet the third file
IS selected afterwards (8 + 1 ≤ 10) — refuting "that file and every file
after it in the sorted order are placed in skipped". -/
theorem C4_counterexample :
    (select_within_budget c4DiffOf 10 [c4FileA, c4FileB, c4FileC]).2 = [c4FileB] ∧
    (select_within_budget c4DiffOf 10 [c4FileA, c4FileB, c4FileC]).1 =
      [{ c4FileA with diff := some (List.replicate 28 'x') },
       { c4FileC with diff := some (List.replicate 4 'x') }] := by
  constructor <;> decide

/-! ### C9: reply emission and id correlation -/

/-- Claim C9 (status: corrected), amended: the server suppresses the reply
for exactly the method `notifications/initialized`, not for id-less
requests; every other request — id or no id — yields exactly one reply, and
any reply carries the request's id (null when absent). -/
theorem C9_reply_emission (oracle : DispatchOracle) (req : MCPRequest) :
    (handleRequest oracle req = none ↔
      req.method = some "notifications/initialized") ∧
    (∀ resp, handleRequest oracle req = some resp → resp.id = req.id) := by
  obtain ⟨m, i, tn, u⟩ := req
  unfold handleRequest
  dsimp only
  split <;>
    (refine ⟨?_, ?_⟩
     · (repeat' split) <;> simp_all
     · intro resp h
       (repeat' split at h) <;>
         first
           | (cases h; rfl)
           | simp_all)

/-- Claim C9 counterexample: a well-formed `initialize` request carrying no
id still gets a reply emitted (the code replies with `id: null`),
contradicting "if the request object carries no id the server emits no
reply line". -/
theorem C9_counterexample :
    (⟨some "initialize", none, none, none⟩ : MCPRequest).id = none ∧
    emitsReply c9Oracle ⟨some "initialize", none, none, none⟩ = true :=
  ⟨rfl, rfl⟩

/-- Witness for C9: the amended theorem applied to a concrete `tools/list`
request with id `"7"`. -/
theorem C9_witness :
    (⟨some "7", false⟩ : MCPResponse).id =
      (⟨some "tools/list", some "7", none, none⟩ : MCPRequest).id :=
  (C9_reply_emission c9Oracle ⟨some "tools/list", some "7", none, none⟩).2
    ⟨some "7", false⟩ rfl

/-! ### C6: session id uniqueness -/

/-- `digitChar` is injective below 10. -/
theorem digitChar_lt_inj :
    ∀ d1 d2 : Nat, d1 < 10 → d2 < 10 → digitChar d1 = digitChar d2 → d1 = d2 := by
  intro d1 d2 h1 h2
  interval_cases d1 <;> interval_cases d2 <;> revert h1 <;> decide

/-- `digitChar` of a digit is a digit character. -/
theorem digitChar_isDigit (d : Nat) (h : d < 10) :
    isDigitChar (digitChar d) = true := by
  interval_cases d <;> decide

/-- Every character of a decimal representation is a digit. -/
theorem decRepr_digits (n : Nat) : ∀ c ∈ decRepr n, isDigitChar c = true := by
  intro c hc
  unfold decRepr at hc
  by_cases hn : n = 0
  · simp only [hn, if_pos] at hc
    simp only [List.mem_singleton] at hc
    subst hc; decide
  · rw [if_neg hn] at hc
    rcases List.mem_map.1 hc with ⟨d, hd, rfl⟩
    exact digitChar_isDigit d
      (Nat.digits_lt_base (by norm_num) (List.mem_reverse.1 hd))

/-- `List.map digitChar` is injective on digit lists. -/
theorem mapDigitChar_inj :
    ∀ l1 l2 : List Nat, (∀ d ∈ l1, d < 10) → (∀ d ∈ l2, d < 10) →
      l1.map digitChar = l2.map digitChar → l1 = l2 := by
  intro l1
  induction l1 with
  | nil => intro l2 _ _ h; cases l2 with
    | nil => rfl
    | cons b bs => simp at h
  | cons a as ih =>
    intro l2 h1 h2 h
    cases l2 with
    | nil => simp at h
    | cons b bs =>
      simp only [List.map_cons, List.cons.injEq] at h
      have ha := h1 a (List.mem_cons_self _ _)
      have hb := h2 b (List.mem_cons_self _ _)
      have := digitChar_lt_inj a b ha hb h.1
      rw [this, ih bs (fun d hd => h1 d (List.mem_cons_of_mem a hd))
        (fun d hd => h2 d (List.mem_cons_of_mem b hd)) h.2]

/-- The decimal representation is injective. -/
theorem decRepr_inj : ∀ m n : Nat, decRepr m = decRepr n → m = n := by
  have key : ∀ n : Nat, n ≠ 0 →
      ((Nat.digits 10 n).reverse.map digitChar = ['0'] → False) := by
    intro n hn h
    have hnil : Nat.digits 10 n ≠ [] := Nat.digits_ne_nil_iff_ne_zero.2 hn
    rcases hrev : (Nat.digits 10 n).reverse with _ | ⟨d, ds⟩
    · exact hnil (by simpa using congrArg List.reverse hrev)
    · rw [hrev] at h
      simp only [List.map_cons, List.cons.injEq] at h
      have hds : ds = [] := by
        rcases ds with _ | ⟨e, es⟩
        · rfl
        · simp at h
      have hd10 : d < 10 :=
        Nat.digits_lt_base (by norm_num)
          (List.mem_reverse.1 (by rw [hrev]; exact List.mem_cons_self _ _))
      have hd0 : d = 0 := digitChar_lt_inj d 0 hd10 (by norm_num) h.1
      have : Nat.digits 10 n = [0] := by
        have := congrArg List.reverse hrev
        simpa [hds, hd0] using this
      have hzero : n = 0 := by
        have hofd := Nat.ofDigits_digits 10 n
        rw [this] at hofd
        simpa using hofd.symm
      exact hn hzero
  intro m n h
  unfold decRepr at h
  by_cases hm : m = 0 <;> by_cases hn : n = 0
  · rw [hm, hn]
  · rw [if_pos hm, if_neg hn] at h; exact absurd h.symm (fun hh => key n hn hh)
  · rw [if_neg hm, if_pos hn] at h; exact absurd h (fun hh => key m hm hh)
  · rw [if_neg hm, if_neg hn] at h
    have hdig := mapDigitChar_inj _ _
      (fun d hd => Nat.digits_lt_base (by norm_num) (List.mem_reverse.1 hd))
      (fun d hd => Nat.digits_lt_base (by norm_num) (List.mem_reverse.1 hd)) h
    have := congrArg List.reverse hdig
    simp only [List.reverse_reverse] at this
    have h1 := Nat.ofDigits_digits 10 m
    have h2 := Nat.ofDigits_digits 10 n
    rw [this] at h1
    rw [← h1, h2]

/-- Cancelling a common `'_' :: r` tail after digit-only blocks. -/
theorem digits_underscore_inj :
    ∀ (d1 d2 r : List Char), (∀ c ∈ d1, isDigitChar c = true) →
      (∀ c ∈ d2, isDigitChar c = true) →
      d1 ++ '_' :: r = d2 ++ '_' :: r → d1 = d2 := by
  intro d1
  induction d1 with
  | nil =>
    intro d2 r _ h2 h
    cases d2 with
    | nil => rfl
    | cons b bs =>
      simp only [List.nil_append, List.cons_append, List.cons.injEq] at h
      have := h2 b (List.mem_cons_self _ _)
      rw [← h.1] at this
      cases this
  | cons a as ih =>
    intro d2 r h1 h2 h
    cases d2 with
    | nil =>
      simp only [List.cons_append, List.nil_append, List.cons.injEq] at h
      have := h1 a (List.mem_cons_self _ _)
      rw [h.1] at this
      cases this
    | cons b bs =>
      simp only [List.cons_append, List.cons.injEq] at h
      rw [h.1, ih bs r (fun c hc => h1 c (List.mem_cons_of_mem a hc))
        (fun c hc => h2 c (List.mem_cons_of_mem b hc)) h.2]

/-- The key being stored is always present after a store assignment. -/
theorem setSession_mem :
    ∀ (st : List (List Char × ReviewSession)) (k : List Char) (s : ReviewSession),
      ∃ e, (k, e) ∈ setSession st k s := by
  intro st
  induction st with
  | nil => intro k s; exact ⟨s, List.mem_singleton.2 rfl⟩
  | cons p rest ih =>
    intro k s
    obtain ⟨k', e'⟩ := p
    simp only [setSession]
    by_cases hk : k' = k
    · rw [if_pos hk]; exact ⟨s, List.mem_cons_self _ _⟩
    · rw [if_neg hk]
      rcases ih k s with ⟨e, he⟩
      exact ⟨e, List.mem_cons_of_mem _ he⟩

/-- Assigning to a key already present keeps the store size. -/
theorem setSession_length_of_mem :
    ∀ (st : List (List Char × ReviewSession)) (k : List Char) (s : ReviewSession),
      (∃ e, (k, e) ∈ st) → (setSession st k s).length = st.length := by
  intro st
  induction st with
  | nil => intro k s h; rcases h with ⟨e, he⟩; cases he
  | cons p rest ih =>
    intro k s h
    obtain ⟨k', e'⟩ := p
    simp only [setSession]
    by_cases hk : k' = k
    · rw [if_pos hk]; rfl
    · rw [if_neg hk]
      rcases h with ⟨e, he⟩
      rcases List.mem_cons.1 he with heq | hmem
      · have : k = k' := congrArg Prod.fst heq
        exact absurd this.symm hk
      · simp only [List.length_cons, ih k s ⟨e, hmem⟩]

/-- Claim C6 (status: corrected), amended: for a fixed orchestrator object,
two `create_review_session` calls return the same id exactly when they fall
in the same whole second — the id determines the timestamp and vice versa —
and a creation whose id is already present replaces the stored session
instead of adding one. -/
theorem C6_session_id_unique :
    (∀ t1 t2 selfId : Nat,
      sessionIdChars t1 selfId = sessionIdChars t2 selfId ↔ t1 = t2) ∧
    (∀ (o : Orchestrator) (now selfId : Nat) (base target : String)
        (cd : Option String) (mr : Nat) (tais : Option (List String)),
      ((createReviewSession (createReviewSession o now selfId base target cd
          mr tais).2 now selfId base target cd mr tais).2).sessions.length =
        ((createReviewSession o now selfId base target cd mr
          tais).2).sessions.length) := by
  constructor
  · intro t1 t2 selfId
    constructor
    · intro h
      unfold sessionIdChars at h
      rw [List.append_assoc, List.append_assoc] at h
      have h1 := List.append_cancel_left h
      have h2 := digits_underscore_inj (decRepr t1) (decRepr t2)
        (decRepr selfId) (decRepr_digits t1) (decRepr_digits t2) h1
      exact decRepr_inj t1 t2 h2
    · intro h; rw [h]
  · intro o now selfId base target cd mr tais
    apply setSession_length_of_mem
    exact setSession_mem _ _ _

/-- Claim C6 counterexample: two creations on the same orchestrator within
the same clock second (`int(time.time())` equal) return the SAME id, and the
second creation overwrites the first in the session store (one entry, not
two), refuting "session ids are unique per creation". -/
theorem C6_counterexample :
    (createReviewSession ⟨[]⟩ 1700000000 140 "main" "HEAD" none 3 none).1 =
      (createReviewSession
        (createReviewSession ⟨[]⟩ 1700000000 140 "main" "HEAD" none 3 none).2
        1700000000 140 "main" "HEAD" none 3 none).1 ∧
    ((createReviewSession
        (createReviewSession ⟨[]⟩ 1700000000 140 "main" "HEAD" none 3 none).2
        1700000000 140 "main" "HEAD" none 3 none).2).sessions.length = 1 := by
  constructor
  · rfl
  · simp [createReviewSession, setSession]

/-! ### C7: round counter never exceeds the ceiling -/

/-- The peer-recording loop touches only the `reviews` map. -/
theorem recordPeerResponses_fields :
    ∀ (peers : List (String × Option String)) (s : ReviewSession),
      (recordPeerResponses peers s).current_round = s.current_round ∧
      (recordPeerResponses peers s).max_rounds = s.max_rounds ∧
      (recordPeerResponses peers s).consensus_reached = s.consensus_reached ∧
      (recordPeerResponses peers s).final_review = s.final_review ∧
      (recordPeerResponses peers s).curated_data = s.curated_data := by
  intro peers
  induction peers with
  | nil => intro s; exact ⟨rfl, rfl, rfl, rfl, rfl⟩
  | cons p rest ih =>
    intro s
    have hstep : recordPeerResponses (p :: rest) s =
        recordPeerResponses rest
          (match p.2 with
           | some resp => sessionSubmitReview s (upperString p.1) 1 resp
           | none => s) := by
      unfold recordPeerResponses
      rw [List.foldl_cons]
    rw [hstep]
    cases hp : p.2 with
    | none => simp only [hp]; exact ih s
    | some resp =>
      simp only [hp]
      have := ih (sessionSubmitReview s (upperString p.1) 1 resp)
      simpa [sessionSubmitReview] using this

/-- `_trigger_peer_reviews` touches only the `reviews` map and the
idempotency flag. -/
theorem triggerPeerReviews_fields (peers : List (String × Option String))
    (s : ReviewSession) :
    (triggerPeerReviews peers s).current_round = s.current_round ∧
    (triggerPeerReviews peers s).max_rounds = s.max_rounds ∧
    (triggerPeerReviews peers s).consensus_reached = s.consensus_reached ∧
    (triggerPeerReviews peers s).final_review = s.final_review ∧
    (triggerPeerReviews peers s).curated_data = s.curated_data := by
  unfold triggerPeerReviews
  by_cases ht : s.auto_peer_review_triggered
  · rw [if_pos ht]; exact ⟨rfl, rfl, rfl, rfl, rfl⟩
  · rw [if_neg ht]
    dsimp only
    by_cases hc :
        ((getReview { s with auto_peer_review_triggered := true } "CLAUDE" 1).getD
          "").isEmpty
    · rw [if_pos hc]; exact ⟨rfl, rfl, rfl, rfl, rfl⟩
    · rw [if_neg hc]
      exact recordPeerResponses_fields _ _

/-- A single session mutation preserves `current_round ≤ max_rounds`. -/
theorem sessionStep_round_le {s s' : ReviewSession} (st : SessionStep s s')
    (h : s.current_round ≤ s.max_rounds) :
    s'.current_round ≤ s'.max_rounds := by
  cases st with
  | submit ai round review => exact h
  | advance =>
    unfold advanceRound
    by_cases hge : s.current_round ≥ s.max_rounds
    · rw [if_pos hge]; exact h
    · rw [if_neg hge]; simp only; omega
  | finalizeStep text => exact h
  | orchSubmit peers ai review =>
    unfold orchestratorSubmitReview
    dsimp only
    by_cases h1 : upperString ai = "CLAUDE" ∧
        curatedTruthy (sessionSubmitReview s ai s.current_round review)
    · rw [if_pos h1]
      by_cases h2 : (sessionSubmitReview s ai s.current_round review).current_round
            = 1 ∧
          ¬ (sessionSubmitReview s ai s.current_round review).auto_peer_review_triggered
      · rw [if_pos h2]
        rcases triggerPeerReviews_fields peers
          (sessionSubmitReview s ai s.current_round review) with ⟨hr, hm, -⟩
        rw [hr, hm]; exact h
      · rw [if_neg h2]
        by_cases h3 : 2 ≤ (sessionSubmitReview s ai s.current_round review).current_round
        · rw [if_pos h3]
          by_cases h4 : (checkRoundConsensus
              (sessionSubmitReview s ai s.current_round review)).consensus_reached
          · rw [if_pos h4]; exact h
          · rw [if_neg h4]
            by_cases h5 : (sessionSubmitReview s ai s.current_round review).current_round
                ≥ (sessionSubmitReview s ai s.current_round review).max_rounds
            · rw [if_pos h5]; exact h
            · rw [if_neg h5]
              rcases triggerPeerReviews_fields peers
                (sessionSubmitReview s ai s.current_round review) with ⟨hr, hm, -⟩
              simp only [hr, hm]
              have h5' : s.current_round < s.max_rounds := by
                simpa [sessionSubmitReview] using Nat.lt_of_not_ge h5
              simpa [sessionSubmitReview] using h5'
        · rw [if_neg h3]; exact h
    · rw [if_neg h1]; exact h

/-- Claim C7 (status: corrected), amended: PROVIDED the session is created
with `max_rounds ≥ 1` (so that the initial round 1 already respects the
ceiling), every reachable state satisfies `current_round ≤ max_rounds`; and
`advance_round` at the ceiling returns the distinct `max_rounds_reached`
status with the whole session state unchanged. -/
theorem C7_round_ceiling :
    (∀ (sid : List Char) (base target : String) (cd : Option String)
        (mr : Nat) (tais : Option (List String)) (s : ReviewSession),
      1 ≤ mr →
      ReachableSession (initSession sid base target cd mr tais) s →
      s.current_round ≤ s.max_rounds) ∧
    (∀ s : ReviewSession, s.max_rounds ≤ s.current_round →
      (advanceRound s).1.1 = "max_rounds_reached" ∧ (advanceRound s).2 = s) := by
  constructor
  · intro sid base target cd mr tais s hmr hreach
    induction hreach with
    | refl => simpa [initSession] using hmr
    | tail _ step ih => exact sessionStep_round_le step ih
  · intro s hle
    unfold advanceRound
    rw [if_pos hle]
    exact ⟨rfl, rfl⟩

/-- Claim C7 counterexample: nothing validates `max_rounds`, so a session
created with `max_rounds = 0` (reachable through the protocol layer, which
passes request arguments straight through) starts at
`current_round = 1 > max_rounds = 0` — the invariant fails at the initial,
trivially reachable state. -/
theorem C7_counterexample :
    ReachableSession (initSession [] "main" "HEAD" none 0 none)
      (initSession [] "main" "HEAD" none 0 none) ∧
    ¬ (initSession [] "main" "HEAD" none 0 none).current_round ≤
        (initSession [] "main" "HEAD" none 0 none).max_rounds :=
  ⟨Relation.ReflTransGen.refl, by decide⟩

/-- Witness for C7: the amended theorem applied to a freshly created session
with `max_rounds = 3` (reachable by reflexivity) and to a concrete session
sitting at its ceiling. -/
theorem C7_witness :
    (initSession [] "m" "h" none 3 none).current_round ≤
      (initSession [] "m" "h" none 3 none).max_rounds ∧
    (advanceRound (initSession [] "m" "h" none 1 none)).1.1 =
      "max_rounds_reached" := by
  constructor
  · exact C7_round_ceiling.1 [] "m" "h" none 3 none _ (by norm_num)
      Relation.ReflTransGen.refl
  · exact (C7_round_ceiling.2 (initSession [] "m" "h" none 1 none)
      (by decide)).1

/-! ### C8: round-consensus heuristic -/

/-- Claim C8 (status: confirmed).  The round check declares consensus iff
feedback exists, strictly more texts carry a positive marker than a negative
one, and at least half the texts carry a positive marker (each text counted
at most once per category, being a filter on texts); and the decision is
order-independent — a function of the multiset of feedback texts. -/
theorem C8_consensus_decision :
    (∀ s : ReviewSession,
      (checkRoundConsensus s).consensus_reached = true ↔
        ((getOtherReviews s "CLAUDE" s.current_round).map Prod.snd ≠ []) ∧
        ((keywordCount positiveKeywords
            ((getOtherReviews s "CLAUDE" s.current_round).map Prod.snd) : ℚ) >
          (keywordCount negativeKeywords
            ((getOtherReviews s "CLAUDE" s.current_round).map Prod.snd) : ℚ)) ∧
        ((keywordCount positiveKeywords
            ((getOtherReviews s "CLAUDE" s.current_round).map Prod.snd) : ℚ) ≥
          (((getOtherReviews s "CLAUDE" s.current_round).map Prod.snd).length : ℚ)
            * (1 / 2))) ∧
    (∀ texts : List String,
      keywordCount positiveKeywords texts ≤ texts.length ∧
      keywordCount negativeKeywords texts ≤ texts.length) ∧
    (∀ t1 t2 : List String, t1.Perm t2 →
      roundConsensusDecision t1 = roundConsensusDecision t2) := by
  refine ⟨?_, ?_, ?_⟩
  · intro s
    unfold checkRoundConsensus
    by_cases hemp : ((getOtherReviews s "CLAUDE" s.current_round).map Prod.snd).isEmpty
    · rw [if_pos hemp]
      simp only [List.isEmpty_iff] at hemp
      simp [hemp]
    · rw [if_neg hemp]
      simp only [List.isEmpty_iff] at hemp
      unfold roundConsensusDecision
      simp only [Bool.and_eq_true, decide_eq_true_eq]
      constructor
      · rintro ⟨h1, h2⟩
        refine ⟨hemp, by exact_mod_cast h1, ?_⟩
        rw [mul_one_div, ge_iff_le, div_le_iff₀ (by norm_num : (0:ℚ) < 2)]
        have h2' : ((getOtherReviews s "CLAUDE" s.current_round).map
            Prod.snd).length ≤ keywordCount positiveKeywords
            ((getOtherReviews s "CLAUDE" s.current_round).map Prod.snd) * 2 := by
          omega
        exact_mod_cast h2'
      · rintro ⟨-, h1, h2⟩
        refine ⟨by exact_mod_cast h1, ?_⟩
        rw [mul_one_div, ge_iff_le, div_le_iff₀ (by norm_num : (0:ℚ) < 2)] at h2
        have h2' : ((getOtherReviews s "CLAUDE" s.current_round).map
            Prod.snd).length ≤ keywordCount positiveKeywords
            ((getOtherReviews s "CLAUDE" s.current_round).map Prod.snd) * 2 := by
          exact_mod_cast h2
        omega
  · intro texts
    exact ⟨List.length_filter_le _ _, List.length_filter_le _ _⟩
  · intro t1 t2 hperm
    unfold roundConsensusDecision keywordCount
    rw [(hperm.filter (textHasAny positiveKeywords)).length_eq,
      (hperm.filter (textHasAny negativeKeywords)).length_eq,
      hperm.length_eq]

/-- Witness for C8: the decision is invariant under swapping two concrete
feedback texts. -/
theorem C8_witness :
    roundConsensusDecision ["approve", "concern"] =
      roundConsensusDecision ["concern", "approve"] :=
  C8_consensus_decision.2.2 _ _ (List.Perm.swap "concern" "approve" [])

/-! ### C3: late submissions and the termination decision -/

/-- The submission lands in the reviews map at the submitted round. -/
theorem findRound_setRound :
    ∀ (rounds : List (Nat × String)) (r : Nat) (c : String),
      findRound (setRound rounds r c) r = some c := by
  intro rounds
  induction rounds with
  | nil =>
    intro r c
    rw [show setRound [] r c = [(r, c)] from rfl]
    simp [findRound]
  | cons p rest ih =>
    intro r c
    obtain ⟨k, v⟩ := p
    by_cases hk : k = r
    · simp [setRound, hk, findRound]
    · simp only [setRound, if_neg hk]
      unfold findRound
      rw [List.find?_cons_of_neg _ (by simpa using hk)]
      exact ih r c

/-- `submit_review` records the review under the submitting agent and
round. -/
theorem getReview_sessionSubmitReview (s : ReviewSession) (ai : String)
    (r : Nat) (review : String) :
    getReview (sessionSubmitReview s ai r review) ai r = some review := by
  unfold getReview sessionSubmitReview
  dsimp only
  have : ∀ rv : List (String × List (Nat × String)),
      ((setReview rv ai r review).find? (fun p => p.1 = ai)).map Prod.snd =
        some (setRound ((rv.find? (fun p => p.1 = ai)).elim [] Prod.snd) r review)
        ∨
      ∃ rounds, ((setReview rv ai r review).find? (fun p => p.1 = ai)).map Prod.snd
        = some (setRound rounds r review) := by
    intro rv
    induction rv with
    | nil =>
      right
      exact ⟨[], by simp [setReview, setRound]⟩
    | cons p rest ih =>
      obtain ⟨name, rounds⟩ := p
      by_cases hn : name = ai
      · right
        refine ⟨rounds, ?_⟩
        simp [setReview, hn, List.find?_cons_of_pos]
      · rcases ih with h | ⟨rds, h⟩
        · right
          refine ⟨(rest.find? (fun p => p.1 = ai)).elim [] Prod.snd, ?_⟩
          simp only [setReview, if_neg hn]
          rw [List.find?_cons_of_neg _ (by simpa using hn)]
          exact h
        · right
          refine ⟨rds, ?_⟩
          simp only [setReview, if_neg hn]
          rw [List.find?_cons_of_neg _ (by simpa using hn)]
          exact h
  rcases this s.reviews with h | ⟨rds, h⟩
  · rw [h]; simp [findRound_setRound]
  · rw [h]; simp [findRound_setRound]

/-- Claim C3 (status: corrected), amended: a late `submit_review` is
recorded in the submissions map, and it leaves `consensus_reached` and
`final_review` unchanged whenever the submitter's upper-cased name is not
the lead's (`"CLAUDE"`) or the session carries no (truthy) curated data; a
late lead submission with curated data instead re-runs the round-≥-2 logic
and can overwrite both fields. -/
theorem C3_late_submission (peers : List (String × Option String))
    (s : ReviewSession) (ai : String) (review : String)
    (h : upperString ai ≠ "CLAUDE" ∨ curatedTruthy s = false) :
    (orchestratorSubmitReview peers s ai review).consensus_reached =
      s.consensus_reached ∧
    (orchestratorSubmitReview peers s ai review).final_review =
      s.final_review ∧
    getReview (orchestratorSubmitReview peers s ai review) ai
      s.current_round = some review := by
  have hcur : curatedTruthy (sessionSubmitReview s ai s.current_round review) =
      curatedTruthy s := rfl
  have hguard : ¬ (upperString ai = "CLAUDE" ∧
      curatedTruthy (sessionSubmitReview s ai s.current_round review)) := by
    rcases h with h | h
    · intro hc; exact h hc.1
    · intro hc; rw [hcur, h] at hc; exact absurd hc.2 (by simp)
  unfold orchestratorSubmitReview
  rw [if_neg hguard]
  exact ⟨rfl, rfl, getReview_sessionSubmitReview s ai s.current_round review⟩

/-- Claim C3 counterexample: on a session whose termination decision is
already made (`consensus_reached = true`, `final_review = "v2"`), a later
lead submission with curated data re-runs the consensus check against the
still-positive round-2 peer feedback and OVERWRITES `final_review` with the
new text — the recorded termination decision is altered. -/
theorem C3_counterexample :
    c3Session.consensus_reached = true ∧
    c3Session.final_review = some "v2" ∧
    (orchestratorSubmitReview [] c3Session "CLAUDE" "v3").final_review =
      some "v3" := by
  refine ⟨rfl, rfl, ?_⟩
  decide

/-- Witness for C3: the amended theorem applied to a late non-lead
submission on the same terminated session. -/
theorem C3_witness :
    (orchestratorSubmitReview [] c3Session "GPT" "late").consensus_reached =
      c3Session.consensus_reached ∧
    (orchestratorSubmitReview [] c3Session "GPT" "late").final_review =
      c3Session.final_review ∧
    getReview (orchestratorSubmitReview [] c3Session "GPT" "late") "GPT"
      c3Session.current_round = some "late" :=
  C3_late_submission [] c3Session "GPT" "late" (Or.inl (by decide))

/-! ### C1: two-thirds agreement with one dissenter -/

/-- Membership is preserved by the stable insertion. -/
theorem mem_insertSorted (x a : Issue) :
    ∀ l : List Issue, a ∈ insertSorted x l ↔ a = x ∨ a ∈ l := by
  intro l
  induction l with
  | nil => simp [insertSorted]
  | cons y ys ih =>
    unfold insertSorted
    by_cases hle : issueLE x y
    · rw [if_pos hle]
      simp [List.mem_cons]
    · rw [if_neg hle]
      simp only [List.mem_cons, ih]
      tauto

/-- Sorting a bucket does not change its members. -/
theorem mem_sortIssues (a : Issue) :
    ∀ l : List Issue, a ∈ sortIssues l ↔ a ∈ l := by
  intro l
  induction l with
  | nil => simp [sortIssues]
  | cons y ys ih =>
    show a ∈ insertSorted y (sortIssues ys) ↔ _
    rw [mem_insertSorted, ih]
    simp [eq_comm]

/-- The four buckets produced by the classification fold: each bucket is the
original bucket followed by the issues passing that tier's condition (the
`if/elif` chain made explicit). -/
theorem foldl_classifyAdd (total : Nat) :
    ∀ (l : List Issue) (b : ConsensusBuckets),
      (l.foldl (classifyAdd total) b).critical =
        b.critical ++ l.filter (fun i =>
          decide (consensusPct i.agreed_by.card total = 1 ∧
            ¬ 0 < i.disagreed_by.card)) ∧
      (l.foldl (classifyAdd total) b).major =
        b.major ++ l.filter (fun i =>
          decide (¬ (consensusPct i.agreed_by.card total = 1 ∧
              ¬ 0 < i.disagreed_by.card) ∧
            (consensusPct i.agreed_by.card total ≥ 66 / 100 ∧
              ¬ 0 < i.disagreed_by.card))) ∧
      (l.foldl (classifyAdd total) b).minor =
        b.minor ++ l.filter (fun i =>
          decide (¬ (consensusPct i.agreed_by.card total = 1 ∧
              ¬ 0 < i.disagreed_by.card) ∧
            ¬ (consensusPct i.agreed_by.card total ≥ 66 / 100 ∧
              ¬ 0 < i.disagreed_by.card) ∧
            consensusPct i.agreed_by.card total ≥ 33 / 100)) ∧
      (l.foldl (classifyAdd total) b).disputed =
        b.disputed ++ l.filter (fun i => decide (0 < i.disagreed_by.card)) := by
  intro l
  induction l with
  | nil => intro b; simp
  | cons i rest ih =>
    intro b
    rw [List.foldl_cons]
    rcases ih (classifyAdd total b i) with ⟨hc, hmaj, hmin, hd⟩
    have hstep : (classifyAdd total b i).critical =
        b.critical ++ (if (consensusPct i.agreed_by.card total = 1 ∧
            ¬ 0 < i.disagreed_by.card) then [i] else []) ∧
        (classifyAdd total b i).major =
        b.major ++ (if (¬ (consensusPct i.agreed_by.card total = 1 ∧
              ¬ 0 < i.disagreed_by.card) ∧
            (consensusPct i.agreed_by.card total ≥ 66 / 100 ∧
              ¬ 0 < i.disagreed_by.card)) then [i] else []) ∧
        (classifyAdd total b i).minor =
        b.minor ++ (if (¬ (consensusPct i.agreed_by.card total = 1 ∧
              ¬ 0 < i.disagreed_by.card) ∧
            ¬ (consensusPct i.agreed_by.card total ≥ 66 / 100 ∧
              ¬ 0 < i.disagreed_by.card) ∧
            consensusPct i.agreed_by.card total ≥ 33 / 100) then [i] else []) ∧
        (classifyAdd total b i).disputed =
        b.disputed ++ (if (0 < i.disagreed_by.card) then [i] else []) := by
      unfold classifyAdd
      dsimp only
      by_cases hA : consensusPct i.agreed_by.card total = 1 ∧
          ¬ 0 < i.disagreed_by.card
      · rw [if_pos hA, if_neg hA.2]
        refine ⟨by rw [if_pos hA], ?_, ?_, by rw [if_neg hA.2, List.append_nil]⟩
        · rw [if_neg (by tauto), List.append_nil]
        · rw [if_neg (by tauto), List.append_nil]
      · rw [if_neg hA]
        by_cases hB : consensusPct i.agreed_by.card total ≥ 66 / 100 ∧
            ¬ 0 < i.disagreed_by.card
        · rw [if_pos hB, if_neg hB.2]
          refine ⟨by rw [if_neg hA, List.append_nil],
            by rw [if_pos (And.intro hA hB)], ?_,
            by rw [if_neg hB.2, List.append_nil]⟩
          rw [if_neg (by tauto), List.append_nil]
        · rw [if_neg hB]
          by_cases hC : consensusPct i.agreed_by.card total ≥ 33 / 100
          · rw [if_pos hC]
            by_cases hD : 0 < i.disagreed_by.card
            · rw [if_pos hD]
              exact ⟨by rw [if_neg hA, List.append_nil],
                by rw [if_neg (by tauto), List.append_nil],
                by rw [if_pos (And.intro hA (And.intro hB hC))],
                by rw [if_pos hD]⟩
            · rw [if_neg hD]
              exact ⟨by rw [if_neg hA, List.append_nil],
                by rw [if_neg (by tauto), List.append_nil],
                by rw [if_pos (And.intro hA (And.intro hB hC))],
                by rw [if_neg hD, List.append_nil]⟩
          · rw [if_neg hC]
            by_cases hD : 0 < i.disagreed_by.card
            · rw [if_pos hD]
              exact ⟨by rw [if_neg hA, List.append_nil],
                by rw [if_neg (by tauto), List.append_nil],
                by rw [if_neg (by tauto), List.append_nil],
                by rw [if_pos hD]⟩
            · rw [if_neg hD]
              exact ⟨by rw [if_neg hA, List.append_nil],
                by rw [if_neg (by tauto), List.append_nil],
                by rw [if_neg (by tauto), List.append_nil],
                by rw [if_neg hD, List.append_nil]⟩
    refine ⟨?_, ?_, ?_, ?_⟩
    · rw [hc, hstep.1, List.filter_cons, List.append_assoc]
      by_cases h1 : consensusPct i.agreed_by.card total = 1 ∧
          ¬ 0 < i.disagreed_by.card
      · rw [if_pos h1, if_pos (decide_eq_true h1)]
        rfl
      · rw [if_neg h1, if_neg (by simp only [decide_eq_true_eq]; exact h1)]
        rfl
    · rw [hmaj, hstep.2.1, List.filter_cons, List.append_assoc]
      by_cases h1 : ¬ (consensusPct i.agreed_by.card total = 1 ∧
          ¬ 0 < i.disagreed_by.card) ∧
          (consensusPct i.agreed_by.card total ≥ 66 / 100 ∧
            ¬ 0 < i.disagreed_by.card)
      · rw [if_pos h1, if_pos (decide_eq_true h1)]
        rfl
      · rw [if_neg h1, if_neg (by simp only [decide_eq_true_eq]; exact h1)]
        rfl
    · rw [hmin, hstep.2.2.1, List.filter_cons, List.append_assoc]
      by_cases h1 : ¬ (consensusPct i.agreed_by.card total = 1 ∧
          ¬ 0 < i.disagreed_by.card) ∧
          ¬ (consensusPct i.agreed_by.card total ≥ 66 / 100 ∧
            ¬ 0 < i.disagreed_by.card) ∧
          consensusPct i.agreed_by.card total ≥ 33 / 100
      · rw [if_pos h1, if_pos (decide_eq_true h1)]
        rfl
      · rw [if_neg h1, if_neg (by simp only [decide_eq_true_eq]; exact h1)]
        rfl
    · rw [hd, hstep.2.2.2, List.filter_cons, List.append_assoc]
      by_cases h1 : 0 < i.disagreed_by.card
      · rw [if_pos h1, if_pos (decide_eq_true h1)]
        rfl
      · rw [if_neg h1, if_neg (by simp only [decide_eq_true_eq]; exact h1)]
        rfl

/-- Claim C1 (status: corrected), amended: an issue agreed by 2 of 3 agents
(fraction 2/3 ≥ 0.66) with a non-empty `disagreed_by` lands in `disputed`
AND in `minor` — not in `major`, whose tier additionally requires no
disagreement, and not in `critical`. -/
theorem C1_two_thirds_disputed (st : IssueStore) (i : Issue)
    (hmem : ∃ k, (k, i) ∈ st)
    (hcard : i.agreed_by.card = 2)
    (hdis : i.disagreed_by.Nonempty) :
    i ∈ (calculate_consensus st 3).disputed ∧
    i ∈ (calculate_consensus st 3).minor ∧
    i ∉ (calculate_consensus st 3).major ∧
    i ∉ (calculate_consensus st 3).critical := by
  have hvals : i ∈ st.map Prod.snd := by
    rcases hmem with ⟨k, hk⟩
    exact List.mem_map.2 ⟨(k, i), hk, rfl⟩
  have hpct : consensusPct i.agreed_by.card 3 = 2 / 3 := by
    rw [hcard]
    unfold consensusPct
    norm_num
  have hdpos : 0 < i.disagreed_by.card := Finset.card_pos.2 hdis
  have hne1 : ¬ (consensusPct i.agreed_by.card 3 = 1 ∧
      ¬ 0 < i.disagreed_by.card) := by
    rintro ⟨h1, -⟩
    rw [hpct] at h1
    norm_num at h1
  have hnmaj : ¬ (consensusPct i.agreed_by.card 3 ≥ 66 / 100 ∧
      ¬ 0 < i.disagreed_by.card) := by
    rintro ⟨-, h2⟩
    exact h2 hdpos
  have hminor : consensusPct i.agreed_by.card 3 ≥ 33 / 100 := by
    rw [hpct]; norm_num
  rcases foldl_classifyAdd 3 (st.map Prod.snd) ⟨[], [], [], []⟩ with
    ⟨hc, hmaj, hmin, hd⟩
  unfold calculate_consensus
  refine ⟨?_, ?_, ?_, ?_⟩
  · rw [mem_sortIssues]
    rw [hd]
    simp only [List.nil_append, List.mem_filter, decide_eq_true_eq]
    exact ⟨hvals, hdpos⟩
  · rw [mem_sortIssues]
    rw [hmin]
    simp only [List.nil_append, List.mem_filter, decide_eq_true_eq]
    exact ⟨hvals, hne1, hnmaj, hminor⟩
  · rw [mem_sortIssues]
    rw [hmaj]
    simp only [List.nil_append, List.mem_filter, decide_eq_true_eq]
    rintro ⟨-, -, hbad⟩
    exact hbad.2 hdpos
  · rw [mem_sortIssues]
    rw [hc]
    simp only [List.nil_append, List.mem_filter, decide_eq_true_eq]
    rintro ⟨-, hbad⟩
    exact hbad.2 hdpos

/-- Claim C1 counterexample: on the concrete calculator state holding the
2-of-3-agreed, 1-disputed issue, `calculate_consensus(3)` yields an EMPTY
`major` bucket while placing the issue in `disputed` and `minor` — refuting
"in the disputed bucket AND in the major bucket". -/
theorem C1_counterexample :
    (calculate_consensus c1Store 3).major = [] ∧
    c1Issue ∈ (calculate_consensus c1Store 3).disputed ∧
    c1Issue ∈ (calculate_consensus c1Store 3).minor := by
  have hmap : c1Store.map Prod.snd = [c1Issue] := rfl
  have hcard : c1Issue.agreed_by.card = 2 := by decide
  have hpct : consensusPct c1Issue.agreed_by.card 3 = 2 / 3 := by
    rw [hcard]; unfold consensusPct; norm_num
  have hD : 0 < c1Issue.disagreed_by.card := by decide
  have hA : ¬ (consensusPct c1Issue.agreed_by.card 3 = 1 ∧
      ¬ 0 < c1Issue.disagreed_by.card) := by
    rintro ⟨-, hnd⟩; exact hnd hD
  have hB : ¬ (consensusPct c1Issue.agreed_by.card 3 ≥ 66 / 100 ∧
      ¬ 0 < c1Issue.disagreed_by.card) := by
    rintro ⟨-, hnd⟩; exact hnd hD
  have hC : consensusPct c1Issue.agreed_by.card 3 ≥ 33 / 100 := by
    rw [hpct]; norm_num
  rcases foldl_classifyAdd 3 [c1Issue] ⟨[], [], [], []⟩ with ⟨-, hmaj, hmin, hd⟩
  refine ⟨?_, ?_, ?_⟩
  · show sortIssues
      ((c1Store.map Prod.snd).foldl (classifyAdd 3) ⟨[], [], [], []⟩).major = []
    rw [hmap, hmaj, List.nil_append, List.filter_cons,
      if_neg (by simp only [decide_eq_true_eq]; rintro ⟨-, -, hnd⟩; exact hnd hD)]
    rfl
  · show c1Issue ∈ sortIssues
      ((c1Store.map Prod.snd).foldl (classifyAdd 3) ⟨[], [], [], []⟩).disputed
    rw [hmap, mem_sortIssues, hd]
    simp only [List.nil_append, List.mem_filter, decide_eq_true_eq]
    exact ⟨List.mem_singleton.2 rfl, hD⟩
  · show c1Issue ∈ sortIssues
      ((c1Store.map Prod.snd).foldl (classifyAdd 3) ⟨[], [], [], []⟩).minor
    rw [hmap, mem_sortIssues, hmin]
    simp only [List.nil_append, List.mem_filter, decide_eq_true_eq]
    exact ⟨List.mem_singleton.2 rfl, hA, hB, hC⟩

/-- Witness for C1: the amended theorem applied to the concrete state. -/
theorem C1_witness :
    c1Issue ∈ (calculate_consensus c1Store 3).disputed ∧
    c1Issue ∈ (calculate_consensus c1Store 3).minor ∧
    c1Issue ∉ (calculate_consensus c1Store 3).major ∧
    c1Issue ∉ (calculate_consensus c1Store 3).critical :=
  C1_two_thirds_disputed c1Store c1Issue
    ⟨issueKey c1Issue, List.mem_singleton.2 rfl⟩
    (by decide) ⟨"GEMINI", by decide⟩

/-! ### C2 and C10: location normalization and identity merge -/

/-- An ASCII letter is not a slash, dot, backtick or whitespace. -/
theorem letter_char_props (c : Char) (h : isAsciiLetter c = true) :
    isSlash c = false ∧ c ≠ '.' ∧ c ≠ backtickChar ∧ c.isWhitespace = false := by
  have h1 : c ≠ '/' := fun he => absurd h (by rw [he]; decide)
  have h2 : c ≠ backslashChar := fun he => absurd h (by rw [he]; decide)
  have h3 : c ≠ '.' := fun he => absurd h (by rw [he]; decide)
  have h4 : c ≠ backtickChar := fun he => absurd h (by rw [he]; decide)
  have h5 : c ≠ ' ' := fun he => absurd h (by rw [he]; decide)
  have h6 : c ≠ '\t' := fun he => absurd h (by rw [he]; decide)
  have h7 : c ≠ '\r' := fun he => absurd h (by rw [he]; decide)
  have h8 : c ≠ '\n' := fun he => absurd h (by rw [he]; decide)
  refine ⟨?_, h3, h4, ?_⟩
  · simp [isSlash, h1, h2]
  · simp [Char.isWhitespace, h5, h6, h7, h8]

/-- An ASCII digit is not a slash, dot, backtick or whitespace. -/
theorem digit_char_props (c : Char) (h : isDigitChar c = true) :
    isSlash c = false ∧ c ≠ '.' ∧ c ≠ backtickChar ∧ c.isWhitespace = false := by
  have h1 : c ≠ '/' := fun he => absurd h (by rw [he]; decide)
  have h2 : c ≠ backslashChar := fun he => absurd h (by rw [he]; decide)
  have h3 : c ≠ '.' := fun he => absurd h (by rw [he]; decide)
  have h4 : c ≠ backtickChar := fun he => absurd h (by rw [he]; decide)
  have h5 : c ≠ ' ' := fun he => absurd h (by rw [he]; decide)
  have h6 : c ≠ '\t' := fun he => absurd h (by rw [he]; decide)
  have h7 : c ≠ '\r' := fun he => absurd h (by rw [he]; decide)
  have h8 : c ≠ '\n' := fun he => absurd h (by rw [he]; decide)
  refine ⟨?_, h3, h4, ?_⟩
  · simp [isSlash, h1, h2]
  · simp [Char.isWhitespace, h5, h6, h7, h8]

/-- Decomposition of the base-name character class. -/
theorem baseNameChar_props (c : Char) (h : baseNameChar c = true) :
    isSlash c = false ∧ c ≠ '.' ∧ c ≠ backtickChar ∧ c.isWhitespace = false := by
  unfold baseNameChar at h
  simp only [Bool.and_eq_true, Bool.not_eq_true', decide_eq_true_eq] at h
  exact ⟨h.1.1.1, h.1.1.2, h.1.2, h.2⟩

/-- Decomposition of the directory-prefix character class. -/
theorem cleanDirChar_props (c : Char) (h : cleanDirChar c = true) :
    c ≠ '.' ∧ c ≠ backtickChar ∧ c.isWhitespace = false := by
  unfold cleanDirChar at h
  simp only [Bool.and_eq_true, Bool.not_eq_true', decide_eq_true_eq] at h
  exact ⟨h.1.1, h.1.2, h.2⟩

/-- Members of a `takeWhile` are members of the list. -/
theorem mem_takeWhile_mem {pred : Char → Bool} :
    ∀ (l : List Char) (x : Char), x ∈ l.takeWhile pred → x ∈ l := by
  intro l
  induction l with
  | nil => intro x hx; cases hx
  | cons a rest ih =>
    intro x hx
    rw [List.takeWhile_cons] at hx
    by_cases ha : pred a
    · rw [if_pos ha] at hx
      rcases List.mem_cons.1 hx with rfl | hx'
      · exact List.mem_cons_self _ _
      · exact List.mem_cons_of_mem _ (ih x hx')
    · rw [if_neg ha] at hx
      cases hx

/-- A valid dot split points at an actual dot of the run. -/
theorem validDot_dot (run : List Char) (p : Nat) (h : validDot run p = true) :
    run.get? p = some '.' := by
  unfold validDot at h
  simp only [Bool.and_eq_true, decide_eq_true_eq] at h
  exact h.1.2

/-- Without a dot in the run the regex cannot commit to any split. -/
theorem lastDotPos_none (run : List Char) (h : ∀ x ∈ run, x ≠ '.') :
    lastDotPos run = none := by
  unfold lastDotPos
  rw [List.filter_eq_nil_iff.2 (fun p _ => by
    intro hval
    exact h '.' (List.get?_mem (validDot_dot run p hval)) rfl)]
  rfl

/-- A dot-free run makes the anchored match fail. -/
theorem matchAt_none (cs : List Char)
    (h : ∀ x ∈ cs.takeWhile (fun c => !isSlash c), x ≠ '.') :
    matchAt cs = none := by
  unfold matchAt
  dsimp only
  rw [lastDotPos_none _ h]

/-- One unfolding step of the leftmost search. -/
theorem searchFilename_cons (c : Char) (l : List Char) :
    searchFilename (c :: l) =
      match matchAt (c :: l) with
      | some r => some r
      | none => searchFilename l := rfl

/-- The leftmost search never fires inside a dot-free directory prefix that
ends in a slash: every candidate run inside the prefix is dot-free, so the
search resumes at the first character after the prefix. -/
theorem searchFilename_dir :
    ∀ (p rest : List Char), (∀ c ∈ p, c ≠ '.') →
      (p = [] ∨ p.getLast? = some '/') →
      searchFilename (p ++ rest) = searchFilename rest := by
  intro p
  induction p with
  | nil => intro rest _ _; rfl
  | cons c p' ih =>
    intro rest hdot hlast
    have hlast' : (c :: p').getLast? = some '/' := by
      rcases hlast with h | h
      · cases h
      · exact h
    have hlastp : p' = [] ∨ p'.getLast? = some '/' := by
      cases p' with
      | nil => exact Or.inl rfl
      | cons b bs =>
        right
        rw [List.getLast?_cons_cons] at hlast'
        exact hlast'
    have hstep : matchAt (c :: (p' ++ rest)) = none := by
      by_cases hc : isSlash c = true
      · apply matchAt_none
        intro x hx
        rw [List.takeWhile_cons, if_neg (by simp [hc])] at hx
        cases hx
      · have hp' : p' ≠ [] := by
          intro he
          subst he
          simp only [List.getLast?_singleton, Option.some.injEq] at hlast'
          exact hc (by rw [hlast']; decide)
        have hlastp' : p'.getLast? = some '/' := by
          rcases hlastp with h | h
          · exact absurd h hp'
          · exact h
        have hmem : '/' ∈ p' := by
          rcases List.mem_getLast?_eq_getLast
              (show '/' ∈ p'.getLast? from hlastp') with ⟨hne, heq⟩
          exact heq ▸ List.getLast_mem hne
        apply matchAt_none
        intro x hx
        rw [List.takeWhile_cons, if_pos (by simp_all)] at hx
        rcases List.mem_cons.1 hx with rfl | hx'
        · exact hdot x (List.mem_cons_self _ _)
        · rw [takeWhile_append_of_exists_not p' rest
            ⟨'/', hmem, by decide⟩] at hx'
          exact hdot x (List.mem_cons_of_mem _ (mem_takeWhile_mem p' x hx'))
    rw [List.cons_append, searchFilename_cons, hstep]
    exact ih rest (fun x hx => hdot x (List.mem_cons_of_mem _ hx)) hlastp

/-- At the start of `basename.ext:line` the anchored match succeeds and
returns the whole of it: the run is the entire string, the only valid dot
is the basename/extension separator, the extension and line groups are
taken greedily. -/
theorem matchAt_base (name ext line : List Char)
    (hname : name ≠ []) (hnc : ∀ c ∈ name, baseNameChar c = true)
    (hext : ext ≠ []) (hec : ∀ c ∈ ext, isAsciiLetter c = true)
    (hline : line ≠ []) (hlc : ∀ c ∈ line, isDigitChar c = true) :
    matchAt (name ++ '.' :: (ext ++ ':' :: line)) =
      some (name ++ '.' :: (ext ++ ':' :: line)) := by
  have hnamenodot : ∀ x ∈ name, x ≠ '.' :=
    fun c hc => (baseNameChar_props c (hnc c hc)).2.1
  have hRnodot : ∀ x ∈ ext ++ ':' :: line, x ≠ '.' := by
    intro x hx
    rcases List.mem_append.1 hx with hx | hx
    · exact (letter_char_props x (hec x hx)).2.1
    · rcases List.mem_cons.1 hx with rfl | hx
      · decide
      · exact (digit_char_props x (hlc x hx)).2.1
  have hall : ∀ x ∈ name ++ '.' :: (ext ++ ':' :: line), (!isSlash x) = true := by
    intro x hx
    rcases List.mem_append.1 hx with hx | hx
    · simp [(baseNameChar_props x (hnc x hx)).1]
    · rcases List.mem_cons.1 hx with rfl | hx
      · decide
      · rcases List.mem_append.1 hx with hx | hx
        · simp [(letter_char_props x (hec x hx)).1]
        · rcases List.mem_cons.1 hx with rfl | hx
          · decide
          · simp [(digit_char_props x (hlc x hx)).1]
  have hrun : (name ++ '.' :: (ext ++ ':' :: line)).takeWhile
      (fun c => !isSlash c) = name ++ '.' :: (ext ++ ':' :: line) :=
    takeWhile_eq_self_of_all _ hall
  have hkey : ∀ q, validDot (name ++ '.' :: (ext ++ ':' :: line)) q = true ↔
      q = name.length := by
    intro q
    constructor
    · intro hv
      have hdotq := validDot_dot _ q hv
      rw [List.get?_eq_getElem?] at hdotq
      rcases Nat.lt_trichotomy q name.length with hlt | heq | hgt
      · rw [List.getElem?_append_left hlt] at hdotq
        exact absurd rfl (hnamenodot '.' (List.getElem?_mem hdotq))
      · exact heq
      · exfalso
        rw [List.getElem?_append_right (Nat.le_of_lt hgt)] at hdotq
        obtain ⟨k, hk⟩ : ∃ k, q - name.length = k + 1 :=
          ⟨q - name.length - 1, by omega⟩
        rw [hk, List.getElem?_cons_succ] at hdotq
        exact (hRnodot '.' (List.getElem?_mem hdotq)) rfl
    · intro hq
      subst hq
      rcases List.exists_cons_of_ne_nil hext with ⟨e, ext', rfl⟩
      unfold validDot
      simp only [Bool.and_eq_true, decide_eq_true_eq]
      refine ⟨⟨List.length_pos.2 hname, ?_⟩, ?_⟩
      · rw [List.get?_eq_getElem?,
          List.getElem?_append_right (Nat.le_refl _), Nat.sub_self]
        rfl
      · have hidx : (name ++ '.' :: (e :: ext' ++ ':' :: line)).get?
            (name.length + 1) = some e := by
          rw [List.get?_eq_getElem?,
            List.getElem?_append_right (Nat.le_add_right _ _)]
          have h1 : name.length + 1 - name.length = 1 := by omega
          rw [h1]
          simp
        rw [hidx]
        exact hec e (List.mem_cons_self _ _)
  have hlastdot : lastDotPos (name ++ '.' :: (ext ++ ':' :: line)) =
      some name.length := by
    unfold lastDotPos
    have hmemf : name.length ∈
        (List.range (name ++ '.' :: (ext ++ ':' :: line)).length).filter
          (fun p => validDot (name ++ '.' :: (ext ++ ':' :: line)) p) := by
      rw [List.mem_filter]
      refine ⟨?_, (hkey name.length).2 rfl⟩
      rw [List.mem_range]
      simp [List.length_append]
    exact getLast?_eq_of_all_eq _ (List.ne_nil_of_mem hmemf)
      (fun x hx => (hkey x).1 (List.mem_filter.1 hx).2)
  have hdrop1 : (name ++ '.' :: (ext ++ ':' :: line)).drop (name.length + 1) =
      ext ++ ':' :: line := by
    rw [show name ++ '.' :: (ext ++ ':' :: line) =
      (name ++ ['.']) ++ (ext ++ ':' :: line) by simp]
    exact List.drop_left' (by simp)
  have hext' : (ext ++ ':' :: line).takeWhile isAsciiLetter = ext :=
    takeWhile_append_cons ext ':' line hec (by decide)
  have htake : (name ++ '.' :: (ext ++ ':' :: line)).take name.length = name :=
    List.take_left' rfl
  have hdrop2 : (name ++ '.' :: (ext ++ ':' :: line)).drop
      (name.length + 1 + ext.length) = ':' :: line := by
    rw [show name ++ '.' :: (ext ++ ':' :: line) =
      ((name ++ ['.']) ++ ext) ++ ':' :: line by simp]
    exact List.drop_left' (by simp [List.length_append]; omega)
  unfold matchAt
  dsimp only
  rw [hrun, hlastdot]
  dsimp only
  rw [hdrop1, hext', htake, hdrop2]
  dsimp only [List.head?, List.tail]
  rw [if_pos rfl, takeWhile_eq_self_of_all line hlc,
    if_neg (by simpa using hline)]
  simp

/-- Normalization of a location `dir-prefix ++ basename.ext:line` keeps only
`basename.ext:line`: the backtick strip and whitespace strip do nothing,
the search skips the prefix and the anchored match returns the basename,
extension and line. -/
theorem normalize_location_dir (p name ext line : List Char)
    (hp : ∀ c ∈ p, cleanDirChar c = true)
    (hpl : p = [] ∨ p.getLast? = some '/')
    (hname : name ≠ []) (hnc : ∀ c ∈ name, baseNameChar c = true)
    (hext : ext ≠ []) (hec : ∀ c ∈ ext, isAsciiLetter c = true)
    (hline : line ≠ []) (hlc : ∀ c ∈ line, isDigitChar c = true) :
    normalize_location (p ++ (name ++ '.' :: (ext ++ ':' :: line))) =
      name ++ '.' :: (ext ++ ':' :: line) := by
  have hbase_chars : ∀ x ∈ name ++ '.' :: (ext ++ ':' :: line),
      x ≠ backtickChar ∧ x.isWhitespace = false := by
    intro x hx
    rcases List.mem_append.1 hx with hx | hx
    · exact ⟨(baseNameChar_props x (hnc x hx)).2.2.1,
        (baseNameChar_props x (hnc x hx)).2.2.2⟩
    · rcases List.mem_cons.1 hx with rfl | hx
      · exact ⟨by decide, by decide⟩
      · rcases List.mem_append.1 hx with hx | hx
        · exact ⟨(letter_char_props x (hec x hx)).2.2.1,
            (letter_char_props x (hec x hx)).2.2.2⟩
        · rcases List.mem_cons.1 hx with rfl | hx
          · exact ⟨by decide, by decide⟩
          · exact ⟨(digit_char_props x (hlc x hx)).2.2.1,
              (digit_char_props x (hlc x hx)).2.2.2⟩
  have hall_chars : ∀ x ∈ p ++ (name ++ '.' :: (ext ++ ':' :: line)),
      x ≠ backtickChar ∧ x.isWhitespace = false := by
    intro x hx
    rcases List.mem_append.1 hx with hx | hx
    · exact ⟨(cleanDirChar_props x (hp x hx)).2.1,
        (cleanDirChar_props x (hp x hx)).2.2⟩
    · exact hbase_chars x hx
  unfold normalize_location
  dsimp only
  rw [List.filter_eq_self.2
    (fun a ha => by simp [(hall_chars a ha).1])]
  rw [stripChars_eq_self (fun x hx => (hall_chars x hx).2)]
  rw [searchFilename_dir p _
    (fun c hc => (cleanDirChar_props c (hp c hc)).1) hpl]
  rcases List.exists_cons_of_ne_nil hname with ⟨n0, name', rfl⟩
  have hm := matchAt_base (n0 :: name') ext line (by simp) hnc hext hec hline hlc
  rw [List.cons_append] at hm ⊢
  rw [searchFilename_cons, hm]

/-- Equal normalized locations short-circuit the identity merge to true. -/
theorem is_same_issue_norm_eq (i1 i2 : Issue)
    (h : normalize_location i1.location = normalize_location i2.location) :
    is_same_issue i1 i2 = true := by
  unfold is_same_issue
  dsimp only
  rw [if_pos h]

/-- Claim C10 (status: confirmed).  Two issues whose raw locations are the
same `basename.ext:line` under different directory prefixes normalize to the
same location (the prefix is discarded) and are therefore always treated as
the same logical issue by the identity merge — even though they are in
different files. -/
theorem C10_basename_collapse (p1 p2 name ext line : List Char)
    (i1 i2 : Issue)
    (hp1 : ∀ c ∈ p1, cleanDirChar c = true)
    (hp1l : p1 = [] ∨ p1.getLast? = some '/')
    (hp2 : ∀ c ∈ p2, cleanDirChar c = true)
    (hp2l : p2 = [] ∨ p2.getLast? = some '/')
    (hname : name ≠ []) (hnc : ∀ c ∈ name, baseNameChar c = true)
    (hext : ext ≠ []) (hec : ∀ c ∈ ext, isAsciiLetter c = true)
    (hline : line ≠ []) (hlc : ∀ c ∈ line, isDigitChar c = true)
    (hl1 : i1.location = p1 ++ (name ++ '.' :: (ext ++ ':' :: line)))
    (hl2 : i2.location = p2 ++ (name ++ '.' :: (ext ++ ':' :: line))) :
    normalize_location i1.location = name ++ '.' :: (ext ++ ':' :: line) ∧
    normalize_location i2.location = normalize_location i1.location ∧
    is_same_issue i1 i2 = true := by
  have h1 : normalize_location i1.location =
      name ++ '.' :: (ext ++ ':' :: line) := by
    rw [hl1]
    exact normalize_location_dir p1 name ext line hp1 hp1l hname hnc hext hec
      hline hlc
  have h2 : normalize_location i2.location =
      name ++ '.' :: (ext ++ ':' :: line) := by
    rw [hl2]
    exact normalize_location_dir p2 name ext line hp2 hp2l hname hnc hext hec
      hline hlc
  exact ⟨h1, by rw [h1, h2], is_same_issue_norm_eq i1 i2 (by rw [h1, h2])⟩

/-- Witness for C10: the claim's own example — `src/a/utils.py:10` and
`lib/b/utils.py:10` with unrelated titles are merged. -/
theorem C10_witness :
    normalize_location c10IssueA.location = "utils.py:10".toList ∧
    normalize_location c10IssueB.location =
      normalize_location c10IssueA.location ∧
    is_same_issue c10IssueA c10IssueB = true :=
  C10_basename_collapse "src/a/".toList "lib/b/".toList "utils".toList
    "py".toList "10".toList c10IssueA c10IssueB
    (by decide) (Or.inr (by decide)) (by decide) (Or.inr (by decide))
    (by decide) (by decide) (by decide) (by decide) (by decide) (by decide)
    (by decide) (by decide)

/-- The file group of the anchored `([^:]+):(\d+)` match is the colon-free
prefix of the location. -/
theorem parseFileLine_file (loc : List Char) (fl : List Char × Nat)
    (h : parseFileLine loc = some fl) :
    fl.1 = loc.takeWhile (fun c => c ≠ ':') := by
  unfold parseFileLine at h
  dsimp only at h
  repeat' split at h
  rotate_left
  all_goals try simp_all
  rw [← h]

/-- Claim C2 (status: corrected), amended: issues with identical normalized
locations are always treated as the same logical issue; but when the file
parts of the normalized locations differ, the identity merge reduces to the
title Jaccard test — so two issues in different files ARE merged whenever
their stop-word-free title word sets are more than 50% similar. -/
theorem C2_merge_behavior (i1 i2 : Issue) :
    ((normalize_location i1.location = normalize_location i2.location →
      is_same_issue i1 i2 = true)) ∧
    ((normalize_location i1.location).takeWhile (fun c => c ≠ ':') ≠
        (normalize_location i2.location).takeWhile (fun c => c ≠ ':') →
      is_same_issue i1 i2 = titleSimilar i1.title i2.title) := by
  constructor
  · exact is_same_issue_norm_eq i1 i2
  · intro hfile
    have hne : normalize_location i1.location ≠ normalize_location i2.location :=
      fun he => hfile (by rw [he])
    unfold is_same_issue
    dsimp only
    rw [if_neg hne]
    rcases hp1 : parseFileLine (normalize_location i1.location) with _ | fl1
    · rcases hp2 : parseFileLine (normalize_location i2.location) with _ | fl2 <;>
        simp [hp1, hp2]
    · rcases hp2 : parseFileLine (normalize_location i2.location) with _ | fl2
      · simp [hp1, hp2]
      · have hf1 := parseFileLine_file _ fl1 hp1
        have hf2 := parseFileLine_file _ fl2 hp2
        have hflne : fl1.1 ≠ fl2.1 := by
          rw [hf1, hf2]; exact hfile
        simp [hp1, hp2, hflne]

/-- Claim C2 counterexample: `a.py:1` and `b.py:99` normalize to locations
with different file parts, yet the identity merge treats the issues as the
same because their titles are identical (Jaccard 1 > 0.5) — refuting "two
issues whose locations differ by file are never merged regardless of title
similarity". -/
theorem C2_counterexample :
    (normalize_location c2IssueA.location).takeWhile (fun c => c ≠ ':') ≠
      (normalize_location c2IssueB.location).takeWhile (fun c => c ≠ ':') ∧
    is_same_issue c2IssueA c2IssueB = true := by
  constructor
  · decide
  · decide

/-- Witness for C2: the amended theorem applied to the same concrete pair:
with different file parts the merge test equals the title-similarity
test. -/
theorem C2_witness :
    is_same_issue c2IssueA c2IssueB = titleSimilar c2IssueA.title c2IssueB.title :=
  (C2_merge_behavior c2IssueA c2IssueB).2 (by decide)

/-- Witness for C4: the amended theorem applied to the concrete walk. -/
theorem C4_witness :
    totalCost c4DiffOf (select_within_budget c4DiffOf 10
      [c4FileA, c4FileB, c4FileC]).1 ≤ 10 ∧
    (select_within_budget c4DiffOf 10 [c4FileA, c4FileB, c4FileC]).1.length +
      (select_within_budget c4DiffOf 10 [c4FileA, c4FileB, c4FileC]).2.length =
      ([c4FileA, c4FileB, c4FileC] : List FileChange).length :=
  C4_budget_walk c4DiffOf 10 [c4FileA, c4FileB, c4FileC]

/-- Witness for C6: the overwrite half of the amended theorem applied to a
concrete double creation. -/
theorem C6_witness :
    ((createReviewSession
        (createReviewSession ⟨[]⟩ 1700000001 141 "dev" "HEAD" none 5 none).2
        1700000001 141 "dev" "HEAD" none 5 none).2).sessions.length =
      ((createReviewSession ⟨[]⟩ 1700000001 141 "dev" "HEAD" none 5
        none).2).sessions.length :=
  C6_session_id_unique.2 ⟨[]⟩ 1700000001 141 "dev" "HEAD" none 5 none
